import Mathlib

/-!
Verification of the Tachyon generic assembler (`source/backend/asm.js`).

This file gives a shallow embedding of the assembler's data model and
algorithms — the code-block item stream, the fix-point relaxation of
`asm.CodeBlock.prototype.assemble`, the final emission walk, the address
arithmetic of `asm.address`, the linker `asm.link`, and the `origin`
emitter — and proves or refutes the specification's claims about them.

Modelling conventions:

* JS numbers that hold byte values and positions are `Nat`.
* A check function in the source receives `(codeBlock, pos)` and consults,
  through closures, the positions of label objects of the block; we model
  it as a function of an environment `Env` (label id ↦ stored position)
  and the walk position.  A production function appends bytes through
  `gen8` (which masks with `0xff`); we model it as returning the list of
  byte values it emits.
* Mutation of label `_pos` and deferred `current`/`size` fields is
  modelled by rebuilding the item list with the updated fields; the
  source's fixup list is exactly the sublist of label/deferred items with
  byte spans between them, so walking the item list is the same
  computation.
* Thrown exceptions (`asm.error`, failed `assert`) are `Option.none` /
  dedicated error constructors; the fix-point `while` loop, which can
  genuinely diverge, takes a fuel parameter and reports the number of
  iterations it performed.
-/

namespace Asm

/-- Environment a check/production closure reads: the current position of
each label object of the block (`label.getPos()`), by label id;
`none` models an unset `_pos`. -/
abbrev Env := Nat → Option Nat

/-- A check function (`checks[i]` in the source): given the block state and
a position, return `none` (invalid here) or the size of the code the
matching production would generate. -/
abbrev CheckFn := Env → Nat → Option Nat

/-- A production function (`prods[i]` in the source): the byte values it
appends (through `gen8`) at the given position. -/
abbrev ProdFn := Env → Nat → List Nat

/-- One element of `this.code`: a plain number, a label object, a deferred
object (with its mutable `current` and `size` fields), or a listing. -/
inductive Item where
  | byte (n : Nat)
  | lbl (id : Nat) (pos : Option Nat)
  | deferred (checks : List CheckFn) (prods : List ProdFn) (current : Nat) (size : Nat)
  | lst (text : String)

/-- The code block state (`asm.CodeBlock`): `startPos`, endianness and
listing flags, and the item array `this.code`. -/
structure CodeBlock where
  startPos : Nat
  bigEndian : Bool
  useListing : Bool
  code : List Item

/-- A fresh code block, as built by the `asm.CodeBlock` constructor. -/
def CodeBlock.init (startPos : Nat) : CodeBlock :=
  ⟨startPos, false, false, []⟩

/-- `asm.CodeBlock.prototype.gen8`: append `num_and(n, 0xff)`. -/
def gen8 (cb : CodeBlock) (n : Nat) : CodeBlock :=
  ⟨cb.startPos, cb.bigEndian, cb.useListing, cb.code ++ [Item.byte (n % 256)]⟩

/-- `asm.CodeBlock.prototype.genLabel`: place a label (its `_pos` becomes
set; the initial value is irrelevant, assembly overwrites it). -/
def genLabel (cb : CodeBlock) (id : Nat) : CodeBlock :=
  ⟨cb.startPos, cb.bigEndian, cb.useListing, cb.code ++ [Item.lbl id (some 0)]⟩

/-- `asm.CodeBlock.prototype.genDeferred`: append a deferred object with
`current = 0`, `size = 0`. -/
def genDeferred (cb : CodeBlock) (checks : List CheckFn) (prods : List ProdFn) : CodeBlock :=
  ⟨cb.startPos, cb.bigEndian, cb.useListing, cb.code ++ [Item.deferred checks prods 0 0]⟩

/-- `asm.CodeBlock.prototype.genListing`: append a listing item. -/
def genListing (cb : CodeBlock) (text : String) : CodeBlock :=
  ⟨cb.startPos, cb.bigEndian, cb.useListing, cb.code ++ [Item.lst text]⟩

/-- `asm.CodeBlock.prototype.origin` (asm.js lines 691–711).  The source
defines local helpers `nb_bytes`/`add_bytes` but never registers them with
`genDeferred`: it returns `this` unchanged, so nothing is appended to the
code array and no error can ever be raised. -/
def origin (cb : CodeBlock) (address : Nat) (fill : Nat) : CodeBlock :=
  cb

/-- `asm.CodeBlock.prototype.byteNb`: count the plain numbers in the code
array. -/
def byteNb (cb : CodeBlock) : Nat :=
  cb.code.countP fun it =>
    match it with
    | Item.byte _ => true
    | _ => false

/-- Label environment of a code list: position stored in the first label
item carrying the given id. -/
def envOf (code : List Item) : Env := fun i =>
  code.foldr
    (fun it acc =>
      match it with
      | Item.lbl j p => if j = i then p else acc
      | _ => acc)
    none

/-- Initial walk of `assemble` (asm.js lines 735–753): set every label's
position to the running count of plain bytes (deferred items contribute
nothing at this stage); other items are untouched. -/
def initWalk (pos : Nat) : List Item → List Item
  | [] => []
  | Item.byte n :: rest => Item.byte n :: initWalk (pos + 1) rest
  | Item.lbl i _ :: rest => Item.lbl i (some pos) :: initWalk pos rest
  | Item.deferred c p cur sz :: rest => Item.deferred c p cur sz :: initWalk pos rest
  | Item.lst t :: rest => Item.lst t :: initWalk pos rest

/-- Inner `while (curr.current < curr.length)` loop of the sizing pass
(asm.js lines 774–786): try the remaining checks in order, advancing past
each one that returns `null`; return the accepted index and size, or
`none` when every remaining check rejects (the `asm.error` case). -/
def findCheckAux (env : Env) (pos : Nat) : List CheckFn → Nat → Option (Nat × Nat)
  | [], _ => none
  | c :: rest, cur =>
    match c env pos with
    | some sz => some (cur, sz)
    | none => findCheckAux env pos rest (cur + 1)

/-- Resume the check scan of a deferred object at its stored `current`. -/
def findCheck (checks : List CheckFn) (env : Env) (pos : Nat) (cur : Nat) :
    Option (Nat × Nat) :=
  findCheckAux env pos (checks.drop cur) cur

/-- Deferred sizing pass (asm.js lines 760–804).  For each deferred item,
scan checks from `current`; on acceptance store the accepted index and
size.  Position bookkeeping follows the source exactly: when the accepted
size differs from the stored size, `pos` is advanced by the OLD size both
inside the `if` and afterwards (`pos = pos + oldSize` twice); when it is
unchanged, `pos` advances once by the (old = new) size.  Returns the
updated items and the pass's `hasChanged` contribution; `none` models the
fatal "every check procedure tested" error. -/
def sizePass (env : Env) : Nat → List Item → Option (List Item × Bool)
  | _, [] => some ([], false)
  | pos, Item.byte n :: rest =>
      (sizePass env (pos + 1) rest).map fun pr => (Item.byte n :: pr.1, pr.2)
  | pos, Item.lbl i p :: rest =>
      (sizePass env pos rest).map fun pr => (Item.lbl i p :: pr.1, pr.2)
  | pos, Item.lst t :: rest =>
      (sizePass env pos rest).map fun pr => (Item.lst t :: pr.1, pr.2)
  | pos, Item.deferred checks prods cur sz :: rest =>
      match findCheck checks env pos cur with
      | none => none
      | some (cur', newSize) =>
          if sz = newSize then
            (sizePass env (pos + sz) rest).map fun pr =>
              (Item.deferred checks prods cur' newSize :: pr.1, pr.2)
          else
            (sizePass env (pos + sz + sz) rest).map fun pr =>
              (Item.deferred checks prods cur' newSize :: pr.1, true)

/-- Label positioning pass (asm.js lines 806–825): recompute every label
position from the walk (bytes count 1, deferred items their current
`size`); report whether any label moved. -/
def labelPass : Nat → List Item → List Item × Bool
  | _, [] => ([], false)
  | pos, Item.byte n :: rest =>
      let pr := labelPass (pos + 1) rest
      (Item.byte n :: pr.1, pr.2)
  | pos, Item.lbl i p :: rest =>
      let pr := labelPass pos rest
      (Item.lbl i (some pos) :: pr.1, if p = some pos then pr.2 else true)
  | pos, Item.deferred c pr0 cur sz :: rest =>
      let pr := labelPass (pos + sz) rest
      (Item.deferred c pr0 cur sz :: pr.1, pr.2)
  | pos, Item.lst t :: rest =>
      let pr := labelPass pos rest
      (Item.lst t :: pr.1, pr.2)

/-- The `while (hasChanged)` fix-point of `assemble` (asm.js lines
755–826): one iteration is a sizing pass followed by a label pass.
Returns the stabilised items and the number of iterations executed;
`none` when the fuel runs out (the loop diverges) or a sizing pass raises
the fatal no-valid-check error. -/
def fixLoop (sp : Nat) : Nat → List Item → Option (List Item × Nat)
  | 0, _ => none
  | fuel + 1, code =>
      match sizePass (envOf code) sp code with
      | none => none
      | some (code1, ch1) =>
          let pr := labelPass sp code1
          if ch1 || pr.2 then
            (fixLoop sp fuel pr.1).map fun q => (q.1, q.2 + 1)
          else
            some (pr.1, 1)

/-- Final emission walk (asm.js lines 828–861): numbers are copied, a
label must carry exactly the walk position (else the fatal "inconsistency
detected"), a deferred item is replaced by the bytes of
`prods[current]` (each masked by `gen8`) and the position advances by its
`size`, and listings are left in place.  Returns the new code and the
final `pos` (the value `assemble` returns). -/
def emitPass (env : Env) : Nat → List Item → Option (List Item × Nat)
  | pos, [] => some ([], pos)
  | pos, Item.byte n :: rest =>
      (emitPass env (pos + 1) rest).map fun pr => (Item.byte n :: pr.1, pr.2)
  | pos, Item.lbl _ p :: rest =>
      if p = some pos then emitPass env pos rest else none
  | pos, Item.lst t :: rest =>
      (emitPass env pos rest).map fun pr => (Item.lst t :: pr.1, pr.2)
  | pos, Item.deferred checks prods cur sz :: rest =>
      match prods.get? cur with
      | none => none
      | some prod =>
          (emitPass env (pos + sz) rest).map fun pr =>
            (((prod env pos).map fun b => Item.byte (b % 256)) ++ pr.1, pr.2)

/-- `asm.CodeBlock.prototype.assemble`: initial walk, fix-point, emission.
Returns the updated block and the return value (`pos` — note it starts at
`startPos`, not `0`). -/
def assemble (cb : CodeBlock) (fuel : Nat) : Option (CodeBlock × Nat) :=
  match fixLoop cb.startPos fuel (initWalk cb.startPos cb.code) with
  | none => none
  | some (code1, _) =>
      match emitPass (envOf code1) cb.startPos code1 with
      | none => none
      | some (code2, pos) =>
          some (⟨cb.startPos, cb.bigEndian, cb.useListing, code2⟩, pos)

/-! ### Projections and invariant predicates over the item stream -/

/-- Byte width an item occupies in the assembled output: a number is one
byte, labels and listings are zero bytes, a deferred item counts its
current `size`. -/
def itemWidth : Item → Nat
  | Item.byte _ => 1
  | Item.lbl _ _ => 0
  | Item.deferred _ _ _ sz => sz
  | Item.lst _ => 0

/-- Total byte width of an item list. -/
def widthSum (l : List Item) : Nat := (l.map itemWidth).sum

/-- The data of one deferred object (`checks`, `prods`, `current`,
`size`). -/
structure DefData where
  checks : List CheckFn
  prods : List ProdFn
  current : Nat
  size : Nat

/-- How one sizing pass may transform a deferred object: the check and
production arrays are untouched and the `current` index can only move
forward. -/
abbrev DefStep (q q' : DefData) : Prop :=
  q'.checks = q.checks ∧ q'.prods = q.prods ∧ q.current ≤ q'.current

/-- The deferred objects of a code list, in order. -/
def defsOf : List Item → List DefData
  | [] => []
  | Item.deferred c p cur sz :: rest => ⟨c, p, cur, sz⟩ :: defsOf rest
  | _ :: rest => defsOf rest

/-- The `current` indices of the deferred objects, in order. -/
def currents (l : List Item) : List Nat := (defsOf l).map DefData.current

/-- The `size` fields of the deferred objects, in order. -/
def sizesOf (l : List Item) : List Nat := (defsOf l).map DefData.size

/-- Number of deferred items (the spec's `D`). -/
def numDefs (l : List Item) : Nat := (defsOf l).length

/-- Maximum number of alternatives over the deferred items (the spec's
`A`). -/
def maxAlts (l : List Item) : Nat :=
  (defsOf l).foldr (fun q acc => max q.checks.length acc) 0

/-- Number of label items (the spec's `L`). -/
def numLabels : List Item → Nat
  | [] => 0
  | Item.lbl _ _ :: rest => numLabels rest + 1
  | _ :: rest => numLabels rest

/-- Remaining alternatives of one deferred object (how often its `current`
can still advance). -/
def defSlack (q : DefData) : Nat := q.checks.length - 1 - q.current

/-- Total remaining advances over all deferred items; the termination
measure of the fix-point. -/
def slack (l : List Item) : Nat := ((defsOf l).map defSlack).sum

/-- Every label of the list stores exactly its walk position when walking
from `pos` (bytes count 1, deferred items their `size`). -/
def Placed : Nat → List Item → Prop
  | _, [] => True
  | pos, Item.byte _ :: rest => Placed (pos + 1) rest
  | pos, Item.lbl _ p :: rest => p = some pos ∧ Placed pos rest
  | pos, Item.deferred _ _ _ sz :: rest => Placed (pos + sz) rest
  | pos, Item.lst _ :: rest => Placed pos rest

/-- Checks of a deferred item have fixed per-alternative sizes `σ`: every
check either rejects or returns the size of its own alternative, and the
last check never rejects (the documented contract, plus size independence
from the block state). -/
def ChecksFixed (σ : Nat → Nat) (checks : List CheckFn) : Prop :=
  (∀ j c, checks.get? j = some c → ∀ env pos,
      c env pos = none ∨ c env pos = some (σ j)) ∧
  (∀ c, checks.get? (checks.length - 1) = some c → ∀ env pos,
      c env pos = some (σ (checks.length - 1)))

/-- Well-formed deferred data: `prods` matches `checks`, the `current`
index is in range, and the checks have fixed per-alternative sizes. -/
def DefWF (q : DefData) : Prop :=
  q.prods.length = q.checks.length ∧ q.current < q.checks.length ∧
  ∃ σ, ChecksFixed σ q.checks

/-- All deferred items of the list are well-formed. -/
def WFcode (l : List Item) : Prop := ∀ q ∈ defsOf l, DefWF q

/-- The stored `size` agrees with whatever the check at `current` can
accept (true of every deferred item after one sizing pass, under
`DefWF`). -/
def DefSized (q : DefData) : Prop :=
  ∀ c, q.checks.get? q.current = some c →
    ∀ env pos v, c env pos = some v → v = q.size

/-- All deferred items of the list are sized. -/
def SizedCode (l : List Item) : Prop := ∀ q ∈ defsOf l, DefSized q

/-- Along the emission walk, every deferred item's selected production
emits exactly `size` bytes. -/
def ProdsExact (env : Env) : Nat → List Item → Prop
  | _, [] => True
  | pos, Item.byte _ :: rest => ProdsExact env (pos + 1) rest
  | pos, Item.lbl _ _ :: rest => ProdsExact env pos rest
  | pos, Item.lst _ :: rest => ProdsExact env pos rest
  | pos, Item.deferred _ prods cur sz :: rest =>
      (∀ prod, prods.get? cur = some prod → (prod env pos).length = sz) ∧
      ProdsExact env (pos + sz) rest

/-- An item of the flat, fully assembled stream: a byte value in 0..=255
or a listing. -/
def flatItem : Item → Prop
  | Item.byte n => n < 256
  | Item.lst _ => True
  | _ => False

/-! ### Address arithmetic (`asm.address`, asm.js lines 1014–1245)

Addresses are little-endian lists of 16-bit limbs.  The source manipulates
them with the JavaScript `&`/`>>` operators, which coerce their operands
through ToInt32; `toInt32`, `jsAnd16`, `jsShr16` model that coercion
exactly. -/

/-- JavaScript ToInt32: reduce modulo 2^32 into [-2^31, 2^31). -/
def toInt32 (x : Int) : Int :=
  let m := x % (2 ^ 32 : Int)
  if m < 2 ^ 31 then m else m - 2 ^ 32

/-- JavaScript `x & 0xFFFF` (the low 16 bits, nonnegative). -/
def jsAnd16 (x : Int) : Int := (toInt32 x) % (2 ^ 16 : Int)

/-- JavaScript `x >> 16` (sign-propagating shift = floor division). -/
def jsShr16 (x : Int) : Int := Int.fdiv (toInt32 x) (2 ^ 16)

/-- A machine address: `addrElemArray` (16-bit limbs, least significant
first) plus the endianness preference. -/
structure Address where
  limbs : List Nat
  bigEndian : Bool
deriving DecidableEq

/-- Group a byte list into 16-bit limbs:
`addrElemArray[i] = (byteArray[2i+1] << 8) + byteArray[2i]`. -/
def limbsOfBytes : List Nat → List Nat
  | b0 :: b1 :: rest => (b1 * 256 + b0) :: limbsOfBytes rest
  | _ => []

/-- The `asm.address` constructor from a 4- or 8-byte array. -/
def address (byteArray : List Nat) (bigEndian : Bool) : Address :=
  ⟨limbsOfBytes (if bigEndian then byteArray.reverse else byteArray), bigEndian⟩

/-- Numeric value of a limb array (base 2^16, little endian). -/
def limbsVal : List Nat → Nat
  | [] => 0
  | l :: rest => l + 65536 * limbsVal rest

/-- Numeric value of an address. -/
def addrVal (a : Address) : Nat := limbsVal a.limbs

/-- Result of an address operation: a value, one of the two fatal
assertion failures, or divergence (an infinite loop in the source). -/
inductive AddrRes where
  | ok (a : Address)
  | overflow
  | underflow
  | diverge
deriving DecidableEq

/-- The carry loop of `addOffset` (asm.js lines 1087–1097).  The
`assert(i < length, "Address overflow")` sits inside the loop, so running
out of limbs while the loop condition still holds is the overflow error
(`none`). -/
def addLoop : List Nat → Int → Int → Option (List Nat)
  | [], opnd, carry =>
      if opnd > 0 ∨ carry ≠ 0 then none else some []
  | l :: rest, opnd, carry =>
      if opnd > 0 ∨ carry ≠ 0 then
        let res : Int := (l : Int) + jsAnd16 opnd + carry
        (addLoop rest (jsShr16 opnd) (jsShr16 res)).map
          fun out => (jsAnd16 res).toNat :: out
      else some (l :: rest)

/-- Outcome of the `subOffset` loop: the updated limbs together with the
final `opnd`, or divergence. -/
inductive SubOut where
  | ok (limbs : List Nat) (endOpnd : Int)
  | diverge
deriving DecidableEq

/-- The borrow loop of `subOffset` (asm.js lines 1118–1135).  Unlike
`addOffset`, this loop has no bounds check: when the limbs run out while
the condition still holds, the source reads `undefined` from the array,
`res` becomes NaN, `NaN >= 0` is false so the borrow stays `-1`, and the
loop never terminates — modelled by `SubOut.diverge`. -/
def subLoop : List Nat → Int → Int → SubOut
  | [], opnd, carry =>
      if opnd > 0 ∨ carry ≠ 0 then SubOut.diverge else SubOut.ok [] opnd
  | l :: rest, opnd, carry =>
      if opnd > 0 ∨ carry ≠ 0 then
        let res : Int := (l : Int) - jsAnd16 opnd + carry
        let newLimb : Int := if res ≥ 0 then res else res + 65536
        let carry' : Int := if res ≥ 0 then 0 else -1
        match subLoop rest (jsShr16 opnd) carry' with
        | SubOut.ok out endOpnd => SubOut.ok (newLimb.toNat :: out) endOpnd
        | SubOut.diverge => SubOut.diverge
      else SubOut.ok (l :: rest) opnd

/-- Nonnegative branch of `addOffset` (asm.js lines 1072–1099). -/
def addOffsetCore (a : Address) (n : Int) : AddrRes :=
  match addLoop a.limbs n 0 with
  | some out => AddrRes.ok ⟨out, a.bigEndian⟩
  | none => AddrRes.overflow

/-- Nonnegative branch of `subOffset` (asm.js lines 1102–1140); the
`assert(opnd === 0 && carry === 0, "Address underflow")` after the loop
fires exactly when the loop exited with `opnd` negative. -/
def subOffsetCore (a : Address) (n : Int) : AddrRes :=
  match subLoop a.limbs n 0 with
  | SubOut.ok out endOpnd =>
      if endOpnd = 0 then AddrRes.ok ⟨out, a.bigEndian⟩ else AddrRes.underflow
  | SubOut.diverge => AddrRes.diverge

/-- `asm.address.prototype.addOffset`: a negative offset is delegated to
`subOffset`. -/
def addOffset (a : Address) (n : Int) : AddrRes :=
  if n < 0 then subOffsetCore a (-n) else addOffsetCore a n

/-- `asm.address.prototype.subOffset`: a negative offset is delegated to
`addOffset`. -/
def subOffset (a : Address) (n : Int) : AddrRes :=
  if n < 0 then addOffsetCore a (-n) else subOffsetCore a n

/-- The limb-wise sum with carry of `addAddress` (asm.js lines
1145–1164): iterates over the left operand's limbs, dropping the final
carry (modular addition). -/
def addFull : List Nat → List Nat → Nat → List Nat
  | [], _, _ => []
  | l :: ls, m :: ms, c => ((l + m + c) % 65536) :: addFull ls ms ((l + m + c) / 65536)
  | _ :: _, [], _ => []

/-- `asm.address.prototype.addAddress`; the width assertion is the `none`
case. -/
def addAddress (a b : Address) : Option Address :=
  if a.limbs.length = b.limbs.length then
    some ⟨addFull a.limbs b.limbs 0, a.bigEndian⟩
  else none

/-- `asm.address.prototype.complement` (asm.js lines 1167–1179): flip
every limb to `0xFFFF - limb`, then `addOffset(1)` — so the source's
"complement" is already the full two's-complement negation. -/
def complement (a : Address) : AddrRes :=
  addOffset ⟨a.limbs.map fun l => 0xFFFF - l, a.bigEndian⟩ 1

/-! ### Linker (`asm.link`, asm.js lines 991–1012) -/

/-- One entry of a machine code block's `requiredArray`: the site's byte
offset, the byte array its `linkValue()` call returns, and the
`width()` in bits its link object declared at `genRequired` time (which
`asm.link` never consults). -/
structure Required where
  offset : Nat
  linkVal : List Nat
  widthBits : Nat
deriving DecidableEq

/-- A machine code block as `asm.link` sees it: its byte contents and its
required sites. -/
structure MCB where
  bytes : List Nat
  required : List Required
deriving DecidableEq

/-- Byte write into a machine code block.  `writeToMemoryBlock` is a
native helper that is not part of src/.  Modelled from the spec: a
bounds-checked byte write; writing past the end of the block is fatal. -/
def writeToMemoryBlock (blk : List Nat) (off : Nat) (v : Nat) : Option (List Nat) :=
  if off < blk.length then some (blk.set off v) else none

/-- The inner `for` loop of `asm.link`: copy the link value bytes into the
block starting at `offset`. -/
def writeBytes (blk : List Nat) (off : Nat) : List Nat → Option (List Nat)
  | [] => some blk
  | b :: bs =>
      match writeToMemoryBlock blk off b with
      | none => none
      | some blk' => writeBytes blk' (off + 1) bs

/-- Iteration over the required sites of `asm.link`. -/
def linkAux (blk : List Nat) : List Required → Option (List Nat)
  | [] => some blk
  | r :: rest =>
      match writeBytes blk r.offset r.linkVal with
      | none => none
      | some blk' => linkAux blk' rest

/-- `asm.link`: patch every required site.  The source's only validation
is `assert(bytes.length !== undefined)` — the link value is an array —
which a list satisfies by construction; the byte count is never compared
against `width()/8`. -/
def link (mcb : MCB) : Option MCB :=
  (linkAux mcb.bytes mcb.required).map fun b => ⟨b, mcb.required⟩

/-! ### Concrete blocks used by witnesses and counterexamples -/

/-- A check that always accepts with size 5. -/
def alwaysFive : CheckFn := fun _ _ => some 5

/-- A production emitting five zero bytes. -/
def emitFive : ProdFn := fun _ _ => [0, 0, 0, 0, 0]

/-- One deferred item with a single always-valid alternative of size 5;
`D = 1`, `A = 1`, `L = 0`. -/
def cbFive : CodeBlock := genDeferred (CodeBlock.init 0) [alwaysFive] [emitFive]

/-- A check that always accepts with size 3. -/
def alwaysThree : CheckFn := fun _ _ => some 3

/-- A probe check: it accepts with a size equal to the position it was
called at, so the size stored into its deferred item records the walk
position the sizing pass used there. -/
def probeCheck : CheckFn := fun _ pos => some pos

/-- Two deferred items: one of fixed size 3 followed by a position probe. -/
def cbProbe : CodeBlock :=
  genDeferred (genDeferred (CodeBlock.init 0) [alwaysThree] [fun _ _ => [1, 2, 3]])
    [probeCheck] [fun _ _ => []]

/-- A check that always accepts with size 2. -/
def alwaysTwo : CheckFn := fun _ _ => some 2

/-- A production emitting the two bytes 0xAB 0xCD. -/
def emitTwo : ProdFn := fun _ _ => [0xAB, 0xCD]

/-- A representative block: one byte, a label, a two-byte deferred item,
and a listing. -/
def cbW : CodeBlock :=
  genListing
    (genDeferred (genLabel (gen8 (CodeBlock.init 0) 0x90) 7) [alwaysTwo] [emitTwo])
    "ret"

/-- The width-32 address 0xFFFFFFFC (little-endian byte array). -/
def addrFFFC : Address := address [0xFC, 0xFF, 0xFF, 0xFF] false

/-- The width-32 zero address. -/
def addrZero : Address := address [0, 0, 0, 0] false

/-- The width-32 address 2. -/
def addrTwo : Address := address [2, 0, 0, 0] false

/-- The composite expression claim C8 builds:
`a.add(a.complement().add_offset(1))`, returning its numeric value when
every step succeeds. -/
def complementAddOne (a : Address) : Option Nat :=
  match complement a with
  | AddrRes.ok c =>
      match addOffset c 1 with
      | AddrRes.ok d => (addAddress a d).map addrVal
      | _ => none
  | _ => none

/-- A machine code block of eight zero bytes with one required site at
offset 2 whose link object declared `width() = 32` but whose
`linkValue()` returns only three bytes. -/
def mcbMismatch : MCB := ⟨[0, 0, 0, 0, 0, 0, 0, 0], [⟨2, [1, 2, 3], 32⟩]⟩

/-- The block `cbW` after assembly: label dropped, deferred replaced by
its two produced bytes, listing kept. -/
def cbWout : CodeBlock :=
  ⟨0, false, false, [Item.byte 144, Item.byte 171, Item.byte 205, Item.lst "ret"]⟩

/-- Number of plain byte items in a code list (the computation of
`byteNb`). -/
def countBytes (l : List Item) : Nat :=
  l.countP fun it =>
    match it with
    | Item.byte _ => true
    | _ => false

/-- The item stream of `cbFive` after the fix-point: the single deferred
item has settled on alternative 0 with size 5. -/
def cbFiveFix : List Item := [Item.deferred [alwaysFive] [emitFive] 0 5]

/-- The item stream of `cbW` after the fix-point: the label sits at
position 1 and the deferred item has settled on alternative 0 with size
2. -/
def cbWfix : List Item :=
  [Item.byte 144, Item.lbl 7 (some 1),
   Item.deferred [alwaysTwo] [emitTwo] 0 2, Item.lst "ret"]

/-! ### Theorems -/

/-- Claim C2, counterexample: on an empty CodeBlock with `start_pos = 5`,
`assemble()` returns 5 (it returns the final walk `pos`, which starts at
`start_pos`), not 0 as the claim states; the state is indeed unchanged
and `byte_count()` is 0, so the return value also differs from
`byte_count()`. -/
theorem c2_empty_returns_startPos :
    assemble (CodeBlock.init 5) 1 = some (CodeBlock.init 5, 5) ∧
    byteNb (CodeBlock.init 5) = 0 ∧ (5 : Nat) ≠ 0 :=
  ⟨rfl, rfl, by decide⟩

/-- Claim C4, counterexample: for `cbFive` (one deferred item with a
single always-valid alternative of size 5, no labels) the claimed bound is
`D·(A-1) + L + 1 = 1·0 + 0 + 1 = 1` pass, but the fix-point loop runs 2
passes (the first changes the size from 0 to 5, the second confirms). -/
theorem c4_pass_bound_violated :
    (fixLoop 0 10 (initWalk 0 cbFive.code)).map Prod.snd = some 2 ∧
    numDefs cbFive.code = 1 ∧ maxAlts cbFive.code = 1 ∧
    numLabels cbFive.code = 0 ∧
    ¬ (2 ≤ numDefs cbFive.code * (maxAlts cbFive.code - 1) +
        numLabels cbFive.code + 1) :=
  ⟨rfl, rfl, rfl, rfl, by decide⟩

/-- Claim C5, counterexample: in `cbProbe` the first deferred item's size
changes from 0 to 3 in the first sizing pass, yet the pass reaches the
next fixup entry (the probe) at position 0, not at `start_pos + 3`: after
a size change the source advances `pos` by the OLD size twice, never by
`new_size`.  The probe stores the position it was called at as its size,
and that stored value is 0. -/
theorem c5_advance_not_new_size :
    (sizePass (envOf (initWalk 0 cbProbe.code)) 0 (initWalk 0 cbProbe.code)).map
        (fun pr => sizesOf pr.1) = some [3, 0] ∧
    (0 : Nat) ≠ 0 + 3 :=
  ⟨rfl, by decide⟩

/-- Claim C6: `origin` is the identity on the code block — the source
builds its padding helpers but never registers them with `genDeferred`,
so no Deferred item is appended, no padding is ever emitted, and the
backwards-address fatal error is unreachable.  This contradicts the
function's own doc comment ("Add enough zero bytes to the code block to
align to the given address"). -/
theorem c6_origin_appends_nothing (cb : CodeBlock) (address fill : Nat) :
    origin cb address fill = cb :=
  rfl

/-- Claim C7: `Address(0xFFFFFFFC, width 32).add_offset(4)` does raise the
fatal "Address overflow" assertion, but `Address(0).sub_offset(1)` never
reaches the "Address underflow" assertion: its borrow loop has no bounds
check, reads past the limb array (`undefined`, giving NaN arithmetic),
keeps the borrow at -1 forever and diverges. -/
theorem c7_overflow_ok_underflow_hangs :
    addOffset addrFFFC 4 = AddrRes.overflow ∧
    subOffset addrZero 1 = AddrRes.diverge :=
  ⟨by decide, by decide⟩

/-- Claim C8, counterexample: for the width-32 address 2, the value of
`a.add(a.complement().add_offset(1))` is 1, not 0 — the source's
`complement()` already performs the `+1` of two's-complement negation, so
adding a further `add_offset(1)` overshoots by one. -/
theorem c8_complement_add_one_not_zero :
    complementAddOne addrTwo = some 1 ∧ (1 : Nat) ≠ 0 :=
  ⟨by decide, by decide⟩

/-- Claim C9, counterexample: a required site whose `linkValue()` returns
3 bytes while its link object declared `width() = 32` (so `width()/8 = 4`)
does not make `link` fail: the source only asserts that the value is an
array, then writes the 3 bytes. -/
theorem c9_length_mismatch_not_fatal :
    (link mcbMismatch).map MCB.bytes = some [0, 0, 1, 2, 3, 0, 0, 0] ∧
    (3 : Nat) ≠ 32 / 8 :=
  ⟨by decide, by decide⟩

/-- Labels found by a successful emission walk carry exactly the walk
position, which is the start position plus the widths of the items
already walked. -/
theorem emitPass_labelPos (env : Env) :
    ∀ (l : List Item) (pos : Nat) (pr : List Item × Nat),
      emitPass env pos l = some pr →
      ∀ i id p, l.get? i = some (Item.lbl id p) →
        p = some (pos + widthSum (l.take i)) := by
  intro l
  induction l with
  | nil =>
      intro pos pr _ i id p hget
      simp [List.get?] at hget
  | cons head rest ih =>
      intro pos pr h i id p hget
      cases head with
      | byte n =>
          rw [show emitPass env pos (Item.byte n :: rest) =
              (emitPass env (pos + 1) rest).map
                (fun pr => (Item.byte n :: pr.1, pr.2)) from rfl] at h
          rcases Option.map_eq_some'.mp h with ⟨pr', hpr', _⟩
          cases i with
          | zero => simp at hget
          | succ i =>
              have := ih (pos + 1) pr' hpr' i id p (by simpa using hget)
              rw [this]
              simp [widthSum, itemWidth]
              omega
      | lbl id0 p0 =>
          rw [show emitPass env pos (Item.lbl id0 p0 :: rest) =
              (if p0 = some pos then emitPass env pos rest else none) from rfl] at h
          by_cases hp : p0 = some pos
          · rw [if_pos hp] at h
            cases i with
            | zero =>
                simp at hget
                rw [← hget.2, hp]
                simp [widthSum]
            | succ i =>
                have := ih pos pr h i id p (by simpa using hget)
                rw [this]
                simp [widthSum, itemWidth]
          · rw [if_neg hp] at h
            exact absurd h (by simp)
      | deferred checks prods cur sz =>
          rw [show emitPass env pos (Item.deferred checks prods cur sz :: rest) =
              (match prods.get? cur with
               | none => none
               | some prod =>
                   (emitPass env (pos + sz) rest).map fun pr =>
                     (((prod env pos).map fun b => Item.byte (b % 256)) ++ pr.1, pr.2))
              from rfl] at h
          cases hprod : prods.get? cur with
          | none => rw [hprod] at h; exact absurd h (by simp)
          | some prod =>
              rw [hprod] at h
              rcases Option.map_eq_some'.mp h with ⟨pr', hpr', _⟩
              cases i with
              | zero => simp at hget
              | succ i =>
                  have := ih (pos + sz) pr' hpr' i id p (by simpa using hget)
                  rw [this]
                  simp [widthSum, itemWidth]
                  omega
      | lst t =>
          rw [show emitPass env pos (Item.lst t :: rest) =
              (emitPass env pos rest).map
                (fun pr => (Item.lst t :: pr.1, pr.2)) from rfl] at h
          rcases Option.map_eq_some'.mp h with ⟨pr', hpr', _⟩
          cases i with
          | zero => simp at hget
          | succ i =>
              have := ih pos pr' hpr' i id p (by simpa using hget)
              rw [this]
              simp [widthSum, itemWidth]

/-- Claim C1 (confirmed): when `assemble` succeeds, every label of the
relaxed item stream (the stream the final emission walks) stores exactly
`start_pos` plus the summed byte widths of the items preceding it — bytes
count 1, listings 0, each deferred item its final selected size — because
the final emission walk recomputes every position and fails on any
mismatch. -/
theorem c1_label_positions (cb : CodeBlock) (fuel : Nat) (res : CodeBlock × Nat)
    (h : assemble cb fuel = some res) :
    ∃ code1 n,
      fixLoop cb.startPos fuel (initWalk cb.startPos cb.code) = some (code1, n) ∧
      ∀ i id p, code1.get? i = some (Item.lbl id p) →
        p = some (cb.startPos + widthSum (code1.take i)) := by
  rcases hfix : fixLoop cb.startPos fuel (initWalk cb.startPos cb.code) with _ | ⟨code1, n⟩
  · simp [assemble, hfix] at h
  · rcases hemit : emitPass (envOf code1) cb.startPos code1 with _ | ⟨code2, pos⟩
    · simp [assemble, hfix, hemit] at h
    · exact ⟨code1, n, rfl,
        emitPass_labelPos (envOf code1) code1 cb.startPos (code2, pos) hemit⟩

/-- Witness for C1 at the concrete block `cbW` (assembles with fuel 2). -/
theorem c1_label_positions_witness :
    ∃ code1 n, fixLoop 0 2 (initWalk 0 cbW.code) = some (code1, n) ∧
      ∀ i id p, code1.get? i = some (Item.lbl id p) →
        p = some (0 + widthSum (code1.take i)) :=
  c1_label_positions cbW 2 (cbWout, 3) rfl

/-- Bytes produced by a production function count one each. -/
theorem countBytes_mapByte (bs : List Nat) :
    countBytes (bs.map fun b => Item.byte (b % 256)) = bs.length := by
  induction bs with
  | nil => rfl
  | cons b bs ih => simp [countBytes, List.countP_cons] at ih ⊢

/-- A successful emission walk whose productions emit exactly their
declared sizes returns the walk start plus the number of byte items it
wrote. -/
theorem emitPass_count (env : Env) :
    ∀ (l : List Item) (pos : Nat) (pr : List Item × Nat),
      emitPass env pos l = some pr → ProdsExact env pos l →
      pr.2 = pos + countBytes pr.1 := by
  intro l
  induction l with
  | nil =>
      intro pos pr h _
      rw [show emitPass env pos ([] : List Item) = some ([], pos) from rfl] at h
      cases h
      simp [countBytes]
  | cons head rest ih =>
      intro pos pr h hpe
      cases head with
      | byte n =>
          rw [show emitPass env pos (Item.byte n :: rest) =
              (emitPass env (pos + 1) rest).map
                (fun pr => (Item.byte n :: pr.1, pr.2)) from rfl] at h
          rcases Option.map_eq_some'.mp h with ⟨pr', hpr', heq⟩
          have hrec := ih (pos + 1) pr' hpr' (by simpa [ProdsExact] using hpe)
          rw [← heq]
          simp [countBytes, List.countP_cons] at hrec ⊢
          omega
      | lbl id0 p0 =>
          rw [show emitPass env pos (Item.lbl id0 p0 :: rest) =
              (if p0 = some pos then emitPass env pos rest else none) from rfl] at h
          by_cases hp : p0 = some pos
          · rw [if_pos hp] at h
            exact ih pos pr h (by simpa [ProdsExact] using hpe)
          · rw [if_neg hp] at h; exact absurd h (by simp)
      | deferred checks prods cur sz =>
          rw [show emitPass env pos (Item.deferred checks prods cur sz :: rest) =
              (match prods.get? cur with
               | none => none
               | some prod =>
                   (emitPass env (pos + sz) rest).map fun pr =>
                     (((prod env pos).map fun b => Item.byte (b % 256)) ++ pr.1, pr.2))
              from rfl] at h
          cases hprod : prods.get? cur with
          | none => rw [hprod] at h; exact absurd h (by simp)
          | some prod =>
              rw [hprod] at h
              rcases Option.map_eq_some'.mp h with ⟨pr', hpr', heq⟩
              have hpe' : (∀ prod', prods.get? cur = some prod' →
                  (prod' env pos).length = sz) ∧ ProdsExact env (pos + sz) rest := by
                simpa [ProdsExact] using hpe
              have hlen : (prod env pos).length = sz := hpe'.1 prod hprod
              have hrec := ih (pos + sz) pr' hpr' hpe'.2
              rw [← heq]
              simp only [countBytes, List.countP_append] at hrec ⊢
              have hmap := countBytes_mapByte (prod env pos)
              simp only [countBytes] at hmap
              simp [hmap, hlen]
              omega
      | lst t =>
          rw [show emitPass env pos (Item.lst t :: rest) =
              (emitPass env pos rest).map
                (fun pr => (Item.lst t :: pr.1, pr.2)) from rfl] at h
          rcases Option.map_eq_some'.mp h with ⟨pr', hpr', heq⟩
          have hrec := ih pos pr' hpr' (by simpa [ProdsExact] using hpe)
          rw [← heq]
          simpa [countBytes, List.countP_cons] using hrec

/-- Claim C2, amended (corrected): `assemble()` returns `start_pos` plus
`byte_count()` measured after assembly (equivalently, `start_pos` plus
the length of the emitted byte sequence) provided every deferred item's
selected production emits exactly its selected size; on an empty
CodeBlock it returns `start_pos` — not 0 — and changes no state. -/
theorem c2_return_value :
    (∀ cb fuel cb' r, assemble cb fuel = some (cb', r) →
       (∀ code1 n,
          fixLoop cb.startPos fuel (initWalk cb.startPos cb.code) = some (code1, n) →
          ProdsExact (envOf code1) cb.startPos code1) →
       r = cb.startPos + byteNb cb') ∧
    (∀ sp, assemble (CodeBlock.init sp) 1 = some (CodeBlock.init sp, sp)) := by
  constructor
  · intro cb fuel cb' r h hpe
    rcases hfix : fixLoop cb.startPos fuel (initWalk cb.startPos cb.code) with _ | ⟨code1, n⟩
    · simp [assemble, hfix] at h
    · rcases hemit : emitPass (envOf code1) cb.startPos code1 with _ | ⟨code2, pos⟩
      · simp [assemble, hfix, hemit] at h
      · have hcount := emitPass_count (envOf code1) code1 cb.startPos (code2, pos)
          hemit (hpe code1 n hfix)
        have : cb' = ⟨cb.startPos, cb.bigEndian, cb.useListing, code2⟩ ∧ r = pos := by
          simp [assemble, hfix, hemit] at h
          exact ⟨h.1.symm, h.2.symm⟩
        rw [this.1, this.2]
        exact hcount
  · intro sp; rfl

/-- Witness for C2 at the concrete block `cbW`: the return value 3 equals
`start_pos` (0) plus the three emitted bytes. -/
theorem c2_return_value_witness :
    (3 : Nat) = 0 + byteNb cbWout := by
  refine c2_return_value.1 cbW 2 cbWout 3 rfl ?_
  intro code1 n h
  have h2 : fixLoop 0 2 (initWalk 0 cbW.code) = some (code1, n) := h
  have he : fixLoop 0 2 (initWalk 0 cbW.code) = some (cbWfix, 2) := rfl
  rw [he] at h2
  show ProdsExact (envOf code1) 0 code1
  have h1 : cbWfix = code1 := by
    have := (Option.some.inj h2)
    exact congrArg Prod.fst this
  rw [← h1]
  simp only [ProdsExact, cbWfix]
  refine ⟨?_, trivial⟩
  intro prod hp
  simp at hp
  subst hp
  rfl

/-- What a successful inner check scan guarantees: the result index is at
or after the start, in range of the scanned list, its check accepted with
the returned size, and every scanned check before it rejected. -/
theorem findCheckAux_spec (env : Env) (pos : Nat) :
    ∀ (l : List CheckFn) (start k sz : Nat),
      findCheckAux env pos l start = some (k, sz) →
      start ≤ k ∧ k - start < l.length ∧
      (∃ c, l.get? (k - start) = some c ∧ c env pos = some sz) ∧
      (∀ j, j < k - start → ∃ c, l.get? j = some c ∧ c env pos = none) := by
  intro l
  induction l with
  | nil => intro start k sz h; simp [findCheckAux] at h
  | cons c rest ih =>
      intro start k sz h
      rw [show findCheckAux env pos (c :: rest) start =
          (match c env pos with
           | some sz => some (start, sz)
           | none => findCheckAux env pos rest (start + 1)) from rfl] at h
      cases hc : c env pos with
      | some s =>
          rw [hc] at h
          simp only [Option.some.injEq, Prod.mk.injEq] at h
          obtain ⟨rfl, rfl⟩ := h
          refine ⟨le_refl _, by simp, ⟨c, by simp, hc⟩, ?_⟩
          intro j hj
          omega
      | none =>
          rw [hc] at h
          obtain ⟨h1, h2, ⟨c', hc', hacc⟩, hrej⟩ := ih (start + 1) k sz h
          refine ⟨by omega, by simp; omega, ?_, ?_⟩
          · refine ⟨c', ?_, hacc⟩
            have hm : k - start = (k - (start + 1)) + 1 := by omega
            rw [hm]
            simpa using hc'
          · intro j hj
            cases j with
            | zero => exact ⟨c, by simp, hc⟩
            | succ j' =>
                obtain ⟨c'', hg, hr⟩ := hrej j' (by omega)
                exact ⟨c'', by simpa using hg, hr⟩

/-- The sizing pass leaves every deferred object's check and production
arrays in place and never rewinds a `current` index. -/
theorem sizePass_defs (env : Env) :
    ∀ (l : List Item) (pos : Nat) (out : List Item) (ch : Bool),
      sizePass env pos l = some (out, ch) →
      List.Forall₂ DefStep (defsOf l) (defsOf out) := by
  intro l
  induction l with
  | nil =>
      intro pos out ch h
      simp only [sizePass, Option.some.injEq, Prod.mk.injEq] at h
      obtain ⟨rfl, rfl⟩ := h
      simp [defsOf]
  | cons head rest ih =>
      intro pos out ch h
      cases head with
      | byte n =>
          simp only [sizePass] at h
          rcases Option.map_eq_some'.mp h with ⟨pr', hpr', heq⟩
          cases heq
          simpa [defsOf] using ih (pos + 1) pr'.1 pr'.2 (by rw [hpr'])
      | lbl i p =>
          simp only [sizePass] at h
          rcases Option.map_eq_some'.mp h with ⟨pr', hpr', heq⟩
          cases heq
          simpa [defsOf] using ih pos pr'.1 pr'.2 (by rw [hpr'])
      | lst t =>
          simp only [sizePass] at h
          rcases Option.map_eq_some'.mp h with ⟨pr', hpr', heq⟩
          cases heq
          simpa [defsOf] using ih pos pr'.1 pr'.2 (by rw [hpr'])
      | deferred checks prods cur sz =>
          simp only [sizePass] at h
          cases hfc : findCheck checks env pos cur with
          | none => rw [hfc] at h; exact absurd h (by simp)
          | some pr0 =>
              obtain ⟨cur', newSize⟩ := pr0
              rw [hfc] at h
              simp only at h
              have hmono : cur ≤ cur' :=
                (findCheckAux_spec env pos (checks.drop cur) cur cur' newSize hfc).1
              by_cases hsz : sz = newSize
              · rw [if_pos hsz] at h
                rcases Option.map_eq_some'.mp h with ⟨pr', hpr', heq⟩
                cases heq
                simp only [defsOf]
                exact List.Forall₂.cons ⟨rfl, rfl, hmono⟩
                  (ih (pos + sz) pr'.1 pr'.2 (by rw [hpr']))
              · rw [if_neg hsz] at h
                rcases Option.map_eq_some'.mp h with ⟨pr', hpr', heq⟩
                cases heq
                simp only [defsOf]
                exact List.Forall₂.cons ⟨rfl, rfl, hmono⟩
                  (ih (pos + sz + sz) pr'.1 pr'.2 (by rw [hpr']))

/-- The label pass leaves the deferred objects untouched. -/
theorem labelPass_defs :
    ∀ (l : List Item) (pos : Nat), defsOf (labelPass pos l).1 = defsOf l := by
  intro l
  induction l with
  | nil => intro pos; simp [labelPass, defsOf]
  | cons head rest ih =>
      intro pos
      cases head with
      | byte n => simp [labelPass, defsOf, ih]
      | lbl i p => simp [labelPass, defsOf, ih]
      | deferred c p cur sz => simp [labelPass, defsOf, ih]
      | lst t => simp [labelPass, defsOf, ih]

/-- Forward steps on deferred data give pointwise `≤` on the `current`
indices. -/
theorem forall2_defstep_current {ds ds' : List DefData}
    (h : List.Forall₂ DefStep ds ds') :
    List.Forall₂ (· ≤ ·) (ds.map DefData.current) (ds'.map DefData.current) := by
  induction h with
  | nil => exact List.Forall₂.nil
  | cons hq h' ih => exact List.Forall₂.cons hq.2.2 ih

/-- Pointwise `≤` on lists is transitive. -/
theorem forall2_le_trans :
    ∀ {a b c : List Nat}, List.Forall₂ (· ≤ ·) a b → List.Forall₂ (· ≤ ·) b c →
      List.Forall₂ (· ≤ ·) a c := by
  intro a b c h1
  induction h1 generalizing c with
  | nil => intro h2; cases h2; exact List.Forall₂.nil
  | cons hab h1' ih =>
      intro h2
      cases h2 with
      | cons hbc h2' => exact List.Forall₂.cons (le_trans hab hbc) (ih h2')

/-- Across the whole fix-point loop the `current` indices of the deferred
objects never decrease. -/
theorem fixLoop_currents (sp : Nat) :
    ∀ (fuel : Nat) (code out : List Item) (n : Nat),
      fixLoop sp fuel code = some (out, n) →
      List.Forall₂ (· ≤ ·) (currents code) (currents out) := by
  intro fuel
  induction fuel with
  | zero => intro code out n h; simp [fixLoop] at h
  | succ fuel ih =>
      intro code out n h
      simp only [fixLoop] at h
      cases hsp : sizePass (envOf code) sp code with
      | none => rw [hsp] at h; exact absurd h (by simp)
      | some pr1 =>
          obtain ⟨code1, ch1⟩ := pr1
          rw [hsp] at h
          simp only at h
          have hmono1 : List.Forall₂ (· ≤ ·) (currents code) (currents code1) :=
            forall2_defstep_current (sizePass_defs (envOf code) code sp code1 ch1 hsp)
          have hlp : currents (labelPass sp code1).1 = currents code1 := by
            simp [currents, labelPass_defs]
          by_cases hb : (ch1 || (labelPass sp code1).2) = true
          · rw [if_pos hb] at h
            rcases Option.map_eq_some'.mp h with ⟨q, hq, heq⟩
            have hrec := ih (labelPass sp code1).1 q.1 q.2 (by rw [hq])
            rw [hlp] at hrec
            have hout : q.1 = out := congrArg Prod.fst heq
            rw [hout] at hrec
            exact forall2_le_trans hmono1 hrec
          · rw [if_neg hb] at h
            have hout : (labelPass sp code1).1 = out :=
              congrArg Prod.fst (Option.some.inj h)
            rw [← hout, hlp]
            exact hmono1

/-- Claim C3 (confirmed): across the iterations of `assemble`'s fix-point
every deferred item's `current` index is non-decreasing — the loop never
rewinds it — and within a scan the index advances exactly over checks
that rejected (returned null): every index passed over rejected, and the
index settles on the first accepting check. -/
theorem c3_current_monotone :
    (∀ sp fuel code out n, fixLoop sp fuel code = some (out, n) →
       List.Forall₂ (· ≤ ·) (currents code) (currents out)) ∧
    (∀ checks env pos cur cur' sz,
       findCheck checks env pos cur = some (cur', sz) →
       cur ≤ cur' ∧
       ∀ j, cur ≤ j → j < cur' →
         ∃ c, checks.get? j = some c ∧ c env pos = none) := by
  constructor
  · intro sp fuel code out n h
    exact fixLoop_currents sp fuel code out n h
  · intro checks env pos cur cur' sz h
    obtain ⟨h1, h2, _, hrej⟩ :=
      findCheckAux_spec env pos (checks.drop cur) cur cur' sz h
    refine ⟨h1, ?_⟩
    intro j hj1 hj2
    obtain ⟨c, hg, hr⟩ := hrej (j - cur) (by omega)
    refine ⟨c, ?_, hr⟩
    rw [List.get?_drop] at hg
    rwa [show cur + (j - cur) = j by omega] at hg

/-- Witness for C3: the loop on `cbFive` (current stays at 0 over its two
passes) and a concrete check scan. -/
theorem c3_current_monotone_witness :
    List.Forall₂ (· ≤ ·) (currents (initWalk 0 cbFive.code)) (currents cbFiveFix) ∧
    (0 ≤ 0 ∧ ∀ j, 0 ≤ j → j < 0 →
      ∃ c, [alwaysFive].get? j = some c ∧ c (envOf []) 0 = none) :=
  ⟨c3_current_monotone.1 0 10 (initWalk 0 cbFive.code) cbFiveFix 2 rfl,
   c3_current_monotone.2 [alwaysFive] (envOf []) 0 0 0 5 rfl⟩

/-- Claim C5, amended (corrected): in a sizing pass, after a deferred
item's accepted alternative returns `new_size` and the size field is
updated, the walk reaches the next fixup entry at `pos + old_size` when
the size did not change, and at `pos + 2·old_size` when it did — never at
`pos + new_size` (the source advances by the old size, twice on change).
The probe deferred records, as its size, the position the pass used for
the entry after the first deferred item. -/
theorem c5_advance_by_old_size (env : Env) (sp oldSz newSz : Nat)
    (prods1 prods2 : List ProdFn) :
    (sizePass env sp
        [Item.deferred [fun _ _ => some newSz] prods1 0 oldSz,
         Item.deferred [probeCheck] prods2 0 0]).map (fun pr => sizesOf pr.1) =
      some [newSz, if oldSz = newSz then sp + oldSz else sp + oldSz + oldSz] := by
  rcases eq_or_ne oldSz newSz with h | h
  · subst h
    rcases eq_or_ne (0 : Nat) (sp + oldSz) with h2 | h2
    · simp [sizePass, findCheck, findCheckAux, probeCheck, sizesOf, defsOf, ← h2]
    · simp [sizePass, findCheck, findCheckAux, probeCheck, sizesOf, defsOf, h2]
  · rcases eq_or_ne (0 : Nat) (sp + oldSz + oldSz) with h2 | h2
    · simp [sizePass, findCheck, findCheckAux, probeCheck, sizesOf, defsOf, h, ← h2]
    · simp [sizePass, findCheck, findCheckAux, probeCheck, sizesOf, defsOf, h, h2]

/-- A write of a byte list that fits inside the block succeeds, keeps the
block length, places the bytes at the target range and leaves everything
else unchanged. -/
theorem writeBytes_spec :
    ∀ (bs blk : List Nat) (off : Nat), off + bs.length ≤ blk.length →
      ∃ out, writeBytes blk off bs = some out ∧
        out.length = blk.length ∧
        (∀ j, j < bs.length → out.get? (off + j) = bs.get? j) ∧
        (∀ i, i < off ∨ off + bs.length ≤ i → out.get? i = blk.get? i) := by
  intro bs
  induction bs with
  | nil =>
      intro blk off _
      exact ⟨blk, rfl, rfl, by intro j hj; simp at hj, by intro i _; rfl⟩
  | cons b bs ih =>
      intro blk off h
      have hoff : off < blk.length := by simp at h; omega
      have hw : writeToMemoryBlock blk off b = some (blk.set off b) := by
        simp [writeToMemoryBlock, hoff]
      obtain ⟨out, hout, hlen, hin, hpres⟩ :=
        ih (blk.set off b) (off + 1) (by simp at h ⊢; omega)
      refine ⟨out, ?_, ?_, ?_, ?_⟩
      · simp [writeBytes, hw, hout]
      · rw [hlen, List.length_set]
      · intro j hj
        cases j with
        | zero =>
            have hp := hpres off (Or.inl (by omega))
            rw [Nat.add_zero, hp, List.get?_set_eq_of_lt b hoff]
            rfl
        | succ j' =>
            have := hin j' (by simp at hj; omega)
            rw [show off + (j' + 1) = off + 1 + j' by omega]
            rw [this]
            rfl
      · intro i hi
        simp only [List.length_cons] at hi
        have hp := hpres i (by omega)
        rw [hp, List.get?_set_ne b blk (by omega)]

/-- Claim C9, amended (corrected): `link` never compares the byte count
returned by `link_value()` with `width()/8` — its only check is that the
value is an array.  Whenever the returned bytes fit inside the block, it
writes exactly `bytes.length` bytes at `[offset, offset + bytes.length)`
(whatever the declared width) and leaves the rest of the block
unchanged; only a write past the end of the block is fatal. -/
theorem c9_link_writes (blk : List Nat) (off w : Nat) (bv : List Nat)
    (h : off + bv.length ≤ blk.length) :
    ∃ out, link ⟨blk, [⟨off, bv, w⟩]⟩ = some ⟨out, [⟨off, bv, w⟩]⟩ ∧
      out.length = blk.length ∧
      (∀ j, j < bv.length → out.get? (off + j) = bv.get? j) ∧
      (∀ i, i < off ∨ off + bv.length ≤ i → out.get? i = blk.get? i) := by
  obtain ⟨out, hw, hlen, hin, hpres⟩ := writeBytes_spec bv blk off h
  refine ⟨out, ?_, hlen, hin, hpres⟩
  simp [link, linkAux, hw]

/-- Witness for C9 at the concrete mismatching block `mcbMismatch`
(3 bytes written into an 8-byte block at offset 2, declared width 32). -/
theorem c9_link_writes_witness :
    ∃ out, link mcbMismatch = some ⟨out, [⟨2, [1, 2, 3], 32⟩]⟩ ∧
      out.length = ([0, 0, 0, 0, 0, 0, 0, 0] : List Nat).length ∧
      (∀ j, j < ([1, 2, 3] : List Nat).length →
        out.get? (2 + j) = ([1, 2, 3] : List Nat).get? j) ∧
      (∀ i, i < 2 ∨ 2 + ([1, 2, 3] : List Nat).length ≤ i →
        out.get? i = ([0, 0, 0, 0, 0, 0, 0, 0] : List Nat).get? i) :=
  c9_link_writes [0, 0, 0, 0, 0, 0, 0, 0] 2 32 [1, 2, 3] (by decide)

/-- A limb array with 16-bit limbs has value below `65536 ^ length`. -/
theorem limbsVal_lt :
    ∀ (limbs : List Nat), (∀ x ∈ limbs, x < 65536) →
      limbsVal limbs < 65536 ^ limbs.length := by
  intro limbs
  induction limbs with
  | nil => intro _; simp [limbsVal]
  | cons l rest ih =>
      intro hb
      have h1 : l < 65536 := hb l (List.mem_cons_self l rest)
      have h2 : limbsVal rest < 65536 ^ rest.length :=
        ih fun x hx => hb x (List.mem_cons_of_mem l hx)
      have h3 : 65536 ^ (rest.length + 1) = 65536 * 65536 ^ rest.length := by ring
      simp only [limbsVal, List.length_cons]
      omega

/-- ToInt32 is the identity below 2^31. -/
theorem toInt32_natCast (n : Nat) (h : n < 2 ^ 31) : toInt32 (n : Int) = (n : Int) := by
  have h32 : (n : Int) % (2 ^ 32 : Int) = (n : Int) := by
    refine Int.emod_eq_of_lt (Int.natCast_nonneg n) ?_
    have : (n : Int) < ((2 ^ 31 : Nat) : Int) := by exact_mod_cast h
    calc (n : Int) < ((2 ^ 31 : Nat) : Int) := this
      _ ≤ (2 ^ 32 : Int) := by norm_num
  simp only [toInt32, h32]
  rw [if_pos]
  have : (n : Int) < ((2 ^ 31 : Nat) : Int) := by exact_mod_cast h
  calc (n : Int) < ((2 ^ 31 : Nat) : Int) := this
    _ = (2 ^ 31 : Int) := by norm_num

/-- The JavaScript low-16-bit mask on a small natural. -/
theorem jsAnd16_natCast (n : Nat) (h : n < 2 ^ 31) :
    jsAnd16 (n : Int) = ((n % 65536 : Nat) : Int) := by
  simp only [jsAnd16, toInt32_natCast n h]
  push_cast
  norm_num

/-- The JavaScript arithmetic right shift by 16 on a small natural. -/
theorem jsShr16_natCast (n : Nat) (h : n < 2 ^ 31) :
    jsShr16 (n : Int) = ((n / 65536 : Nat) : Int) := by
  simp only [jsShr16, toInt32_natCast n h]
  rw [show ((2 : Int) ^ 16) = ((65536 : Nat) : Int) by norm_num]
  cases n with
  | zero => rfl
  | succ m => rfl

/-- The loop condition of the offset loops, over natural operands. -/
theorem addLoop_cond_iff (o c : Nat) :
    ((o : Int) > 0 ∨ (c : Int) ≠ 0) ↔ (0 < o ∨ c ≠ 0) := by
  simp

/-- Full specification of the `addOffset` carry loop on natural operands
below 2^31: it fails exactly when the sum overflows the available limbs,
and otherwise computes the base-65536 sum. -/
theorem addLoop_spec :
    ∀ (limbs : List Nat) (opnd carry : Nat), carry ≤ 1 → opnd < 2 ^ 31 →
      (∀ x ∈ limbs, x < 65536) →
      (addLoop limbs (opnd : Int) (carry : Int) = none →
         65536 ^ limbs.length ≤ limbsVal limbs + opnd + carry) ∧
      (∀ out, addLoop limbs (opnd : Int) (carry : Int) = some out →
         out.length = limbs.length ∧ (∀ x ∈ out, x < 65536) ∧
         limbsVal out = limbsVal limbs + opnd + carry) := by
  intro limbs
  induction limbs with
  | nil =>
      intro opnd carry hc ho _
      by_cases hcond : 0 < opnd ∨ carry ≠ 0
      · rw [show addLoop [] (opnd : Int) (carry : Int) = none by
          simp only [addLoop]; rw [if_pos ((addLoop_cond_iff opnd carry).mpr hcond)]]
        constructor
        · intro _; simp [limbsVal]; omega
        · intro out hout; exact absurd hout (by simp)
      · rw [show addLoop [] (opnd : Int) (carry : Int) = some [] by
          simp only [addLoop]; rw [if_neg]
          exact fun hor => hcond ((addLoop_cond_iff opnd carry).mp hor)]
        constructor
        · intro h; exact absurd h (by simp)
        · intro out hout
          have : out = [] := (Option.some.inj hout).symm
          subst this
          refine ⟨rfl, by simp, ?_⟩
          simp [limbsVal]
          omega
  | cons l rest ih =>
      intro opnd carry hc ho hb
      have hl : l < 65536 := hb l (List.mem_cons_self l rest)
      have hbrest : ∀ x ∈ rest, x < 65536 := fun x hx => hb x (List.mem_cons_of_mem l hx)
      by_cases hcond : 0 < opnd ∨ carry ≠ 0
      · -- the loop body runs
        have hresN : l + opnd % 65536 + carry < 2 ^ 31 := by
          have := Nat.mod_lt opnd (show 0 < 65536 by norm_num)
          omega
        have hstep : addLoop (l :: rest) (opnd : Int) (carry : Int) =
            (addLoop rest ((opnd / 65536 : Nat) : Int)
                (((l + opnd % 65536 + carry) / 65536 : Nat) : Int)).map
              fun out => ((l + opnd % 65536 + carry) % 65536) :: out := by
          have hres : (l : Int) + jsAnd16 (opnd : Int) + (carry : Int) =
              ((l + opnd % 65536 + carry : Nat) : Int) := by
            rw [jsAnd16_natCast opnd ho]
            push_cast
            ring
          simp only [addLoop]
          rw [if_pos ((addLoop_cond_iff opnd carry).mpr hcond)]
          simp only [hres, jsShr16_natCast opnd ho,
            jsShr16_natCast (l + opnd % 65536 + carry) hresN,
            jsAnd16_natCast (l + opnd % 65536 + carry) hresN,
            Int.toNat_natCast]
        have hcarry' : (l + opnd % 65536 + carry) / 65536 ≤ 1 := by
          have : l + opnd % 65536 + carry < 2 * 65536 := by
            have := Nat.mod_lt opnd (show 0 < 65536 by norm_num)
            omega
          omega
        have hopnd' : opnd / 65536 < 2 ^ 31 := by
          have := Nat.div_le_self opnd 65536
          omega
        obtain ⟨ihnone, ihsome⟩ := ih (opnd / 65536)
          ((l + opnd % 65536 + carry) / 65536) hcarry' hopnd' hbrest
        have hdm1 := Nat.div_add_mod opnd 65536
        have hdm2 := Nat.div_add_mod (l + opnd % 65536 + carry) 65536
        have hpow : 65536 ^ (rest.length + 1) = 65536 * 65536 ^ rest.length := by ring
        constructor
        · intro hnone
          rw [hstep] at hnone
          have hrec : addLoop rest ((opnd / 65536 : Nat) : Int)
              (((l + opnd % 65536 + carry) / 65536 : Nat) : Int) = none := by
            cases hr : addLoop rest ((opnd / 65536 : Nat) : Int)
                (((l + opnd % 65536 + carry) / 65536 : Nat) : Int) with
            | none => rfl
            | some out => rw [hr] at hnone; exact absurd hnone (by simp)
          have hbound := ihnone hrec
          simp only [limbsVal, List.length_cons, hpow]
          omega
        · intro out hout
          rw [hstep] at hout
          rcases Option.map_eq_some'.mp hout with ⟨out', hout', heq⟩
          obtain ⟨hlen, hbnd, hval⟩ := ihsome out' hout'
          subst heq
          refine ⟨by simp [hlen], ?_, ?_⟩
          · intro x hx
            rcases List.mem_cons.mp hx with hx | hx
            · subst hx; exact Nat.mod_lt _ (by norm_num)
            · exact hbnd x hx
          · simp only [limbsVal, hval]
            omega
      · -- the loop exits immediately: opnd = 0 and carry = 0
        have hstep : addLoop (l :: rest) (opnd : Int) (carry : Int) =
            some (l :: rest) := by
          simp only [addLoop]
          rw [if_neg]
          exact fun hor => hcond ((addLoop_cond_iff opnd carry).mp hor)
        constructor
        · intro h; rw [hstep] at h; exact absurd h (by simp)
        · intro out hout
          rw [hstep] at hout
          have heq : l :: rest = out := Option.some.inj hout
          subst heq
          have hz : opnd = 0 ∧ carry = 0 := by
            push_neg at hcond; omega
          exact ⟨rfl, hb, by omega⟩

/-- Value of the limb-wise complement map. -/
theorem limbsVal_compl :
    ∀ (limbs : List Nat), (∀ x ∈ limbs, x < 65536) →
      limbsVal (limbs.map fun l => 0xFFFF - l) =
        65536 ^ limbs.length - 1 - limbsVal limbs := by
  intro limbs
  induction limbs with
  | nil => intro _; rfl
  | cons l rest ih =>
      intro hb
      have h1 : l < 65536 := hb l (List.mem_cons_self l rest)
      have h2 : limbsVal rest < 65536 ^ rest.length :=
        limbsVal_lt rest fun x hx => hb x (List.mem_cons_of_mem l hx)
      have h3 : 65536 ^ (rest.length + 1) = 65536 * 65536 ^ rest.length := by ring
      simp only [List.map_cons, limbsVal, List.length_cons,
        ih fun x hx => hb x (List.mem_cons_of_mem l hx)]
      omega

/-- Full specification of the `addAddress` limb loop: same length, 16-bit
limbs, and the value is congruent to the sum (the final carry is
discarded — modular addition). -/
theorem addFull_spec :
    ∀ (a b : List Nat) (c : Nat), a.length = b.length → c ≤ 1 →
      (∀ x ∈ a, x < 65536) → (∀ x ∈ b, x < 65536) →
      (addFull a b c).length = a.length ∧
      (∀ x ∈ addFull a b c, x < 65536) ∧
      limbsVal (addFull a b c) % 65536 ^ a.length =
        (limbsVal a + limbsVal b + c) % 65536 ^ a.length ∧
      limbsVal (addFull a b c) < 65536 ^ a.length := by
  intro a
  induction a with
  | nil =>
      intro b c _ _ _ _
      refine ⟨rfl, by simp [addFull], ?_, by simp [addFull, limbsVal]⟩
      simp [addFull, limbsVal, Nat.mod_one]
  | cons l ls ih =>
      intro b c hlen hc hba hbb
      cases b with
      | nil => simp at hlen
      | cons m ms =>
          have hl : l < 65536 := hba l (List.mem_cons_self l ls)
          have hm : m < 65536 := hbb m (List.mem_cons_self m ms)
          have hlen' : ls.length = ms.length := by simpa using hlen
          have hc' : (l + m + c) / 65536 ≤ 1 := by omega
          obtain ⟨hL, hB, hV, hlt⟩ := ih ms ((l + m + c) / 65536) hlen' hc'
            (fun x hx => hba x (List.mem_cons_of_mem l hx))
            (fun x hx => hbb x (List.mem_cons_of_mem m hx))
          have hdm := Nat.div_add_mod (l + m + c) 65536
          have hpow : 65536 ^ (ls.length + 1) = 65536 * 65536 ^ ls.length := by ring
          have hmod : (l + m + c) % 65536 < 65536 := Nat.mod_lt _ (by norm_num)
          refine ⟨by simp [addFull, hL], ?_, ?_, ?_⟩
          · intro x hx
            simp only [addFull] at hx
            rcases List.mem_cons.mp hx with hx | hx
            · subst hx; exact hmod
            · exact hB x hx
          · -- value congruence
            simp only [addFull, limbsVal, List.length_cons, hpow]
            have hmodeq : (65536 * limbsVal (addFull ls ms ((l + m + c) / 65536))) %
                  (65536 * 65536 ^ ls.length) =
                (65536 * (limbsVal ls + limbsVal ms + (l + m + c) / 65536)) %
                  (65536 * 65536 ^ ls.length) := by
              rw [Nat.mul_mod_mul_left, Nat.mul_mod_mul_left, hV]
            have hcongr := Nat.ModEq.add_left ((l + m + c) % 65536) hmodeq
            have e2 : l + 65536 * limbsVal ls + (m + 65536 * limbsVal ms) + c =
                (l + m + c) % 65536 +
                  65536 * (limbsVal ls + limbsVal ms + (l + m + c) / 65536) := by
              omega
            rw [e2]
            exact hcongr
          · simp only [addFull, limbsVal, List.length_cons, hpow]
            omega

/-- Claim C8, amended (corrected): the source's `complement()` is already
the full two's-complement negation — it ends with `addOffset(1)` — so it
is `complement()` alone, not `complement().add_offset(1)`, that satisfies
`a.add(complement(a)) = 0 mod 2^width`; and `complement()` of the zero
address is not a negation at all but a fatal "Address overflow" (the
carry of the `+1` runs off the limb array). -/
theorem c8_complement_is_negation (a : Address)
    (hb : ∀ x ∈ a.limbs, x < 65536) :
    (addrVal a ≠ 0 → ∃ c, complement a = AddrRes.ok c ∧
       (addAddress a c).map addrVal = some 0) ∧
    (addrVal a = 0 → complement a = AddrRes.overflow) := by
  have hflip : ∀ x ∈ a.limbs.map (fun l => 0xFFFF - l), x < 65536 := by
    intro x hx
    rcases List.mem_map.mp hx with ⟨y, _, rfl⟩
    omega
  have hval := limbsVal_compl a.limbs hb
  have hvlt := limbsVal_lt a.limbs hb
  obtain ⟨hnone, hsome⟩ :=
    addLoop_spec (a.limbs.map fun l => 0xFFFF - l) 1 0 (by norm_num) (by norm_num) hflip
  simp only [Nat.cast_one, Nat.cast_zero] at hnone hsome
  have hmaplen : (a.limbs.map fun l => 0xFFFF - l).length = a.limbs.length :=
    List.length_map _ _
  constructor
  · intro hnz
    have hnzV : limbsVal a.limbs ≠ 0 := hnz
    rcases hal : addLoop (a.limbs.map fun l => 0xFFFF - l) (1 : Int) (0 : Int)
      with _ | out
    · exfalso
      have hbound := hnone hal
      rw [hval, hmaplen] at hbound
      omega
    · obtain ⟨hlen, hobnd, hoval⟩ := hsome out hal
      rw [hval] at hoval
      rw [hmaplen] at hlen
      refine ⟨⟨out, a.bigEndian⟩, ?_, ?_⟩
      · simp [complement, addOffset, addOffsetCore, hal]
      · have hlen2 : a.limbs.length = out.length := hlen.symm
        obtain ⟨hfl, hfb, hfv, hflt⟩ := addFull_spec a.limbs out 0 hlen2
          (by norm_num) hb hobnd
        have houtval : limbsVal out =
            65536 ^ a.limbs.length - limbsVal a.limbs := by
          omega
        have hzero : limbsVal (addFull a.limbs out 0) = 0 := by
          have hx : (limbsVal a.limbs + limbsVal out + 0) % 65536 ^ a.limbs.length
              = 0 := by
            rw [houtval]
            rw [show limbsVal a.limbs +
                (65536 ^ a.limbs.length - limbsVal a.limbs) + 0 =
                65536 ^ a.limbs.length by omega]
            exact Nat.mod_self _
          rw [hx] at hfv
          rwa [Nat.mod_eq_of_lt hflt] at hfv
        simp [addAddress, hlen2, addrVal, hzero]
  · intro hz
    have hzV : limbsVal a.limbs = 0 := hz
    rcases hal : addLoop (a.limbs.map fun l => 0xFFFF - l) (1 : Int) (0 : Int)
      with _ | out
    · simp [complement, addOffset, addOffsetCore, hal]
    · exfalso
      obtain ⟨hlen, hobnd, hoval⟩ := hsome out hal
      rw [hval] at hoval
      rw [hmaplen] at hlen
      have hoval2 : limbsVal out = 65536 ^ a.limbs.length := by
        omega
      have := limbsVal_lt out hobnd
      rw [hlen, hoval2] at this
      omega

/-- Witness for C8 at the width-32 address 2:
`a.add(a.complement())` is the zero address. -/
theorem c8_complement_is_negation_witness :
    ∃ c, complement addrTwo = AddrRes.ok c ∧
      (addAddress addrTwo c).map addrVal = some 0 :=
  (c8_complement_is_negation addrTwo (by decide)).1 (by decide)

/-- The initial walk adds no byte items. -/
theorem initWalk_byte_mem :
    ∀ (l : List Item) (p n : Nat), Item.byte n ∈ initWalk p l → Item.byte n ∈ l := by
  intro l
  induction l with
  | nil => intro p n h; simpa [initWalk] using h
  | cons head rest ih =>
      intro p n h
      cases head with
      | byte m =>
          rcases List.mem_cons.mp h with h | h
          · rw [h]; exact List.mem_cons_self _ _
          · exact List.mem_cons_of_mem _ (ih (p + 1) n h)
      | lbl i q =>
          rcases List.mem_cons.mp h with h | h
          · exact absurd h (by simp)
          · exact List.mem_cons_of_mem _ (ih p n h)
      | deferred c pr cur sz =>
          rcases List.mem_cons.mp h with h | h
          · exact absurd h (by simp)
          · exact List.mem_cons_of_mem _ (ih p n h)
      | lst t =>
          rcases List.mem_cons.mp h with h | h
          · exact absurd h (by simp)
          · exact List.mem_cons_of_mem _ (ih p n h)

/-- The sizing pass adds no byte items. -/
theorem sizePass_byte_mem (env : Env) :
    ∀ (l : List Item) (pos : Nat) (out : List Item) (ch : Bool),
      sizePass env pos l = some (out, ch) →
      ∀ n, Item.byte n ∈ out → Item.byte n ∈ l := by
  intro l
  induction l with
  | nil =>
      intro pos out ch h n hn
      simp only [sizePass, Option.some.injEq, Prod.mk.injEq] at h
      obtain ⟨rfl, rfl⟩ := h
      simpa using hn
  | cons head rest ih =>
      intro pos out ch h n hn
      cases head with
      | byte m =>
          simp only [sizePass] at h
          rcases Option.map_eq_some'.mp h with ⟨pr', hpr', heq⟩
          cases heq
          rcases List.mem_cons.mp hn with hn | hn
          · rw [hn]; exact List.mem_cons_self _ _
          · exact List.mem_cons_of_mem _ (ih (pos + 1) pr'.1 pr'.2 (by rw [hpr']) n hn)
      | lbl i q =>
          simp only [sizePass] at h
          rcases Option.map_eq_some'.mp h with ⟨pr', hpr', heq⟩
          cases heq
          rcases List.mem_cons.mp hn with hn | hn
          · exact absurd hn (by simp)
          · exact List.mem_cons_of_mem _ (ih pos pr'.1 pr'.2 (by rw [hpr']) n hn)
      | lst t =>
          simp only [sizePass] at h
          rcases Option.map_eq_some'.mp h with ⟨pr', hpr', heq⟩
          cases heq
          rcases List.mem_cons.mp hn with hn | hn
          · exact absurd hn (by simp)
          · exact List.mem_cons_of_mem _ (ih pos pr'.1 pr'.2 (by rw [hpr']) n hn)
      | deferred checks prods cur sz =>
          simp only [sizePass] at h
          cases hfc : findCheck checks env pos cur with
          | none => rw [hfc] at h; exact absurd h (by simp)
          | some pr0 =>
              obtain ⟨cur', newSize⟩ := pr0
              rw [hfc] at h
              simp only at h
              by_cases hsz : sz = newSize
              · rw [if_pos hsz] at h
                rcases Option.map_eq_some'.mp h with ⟨pr', hpr', heq⟩
                cases heq
                rcases List.mem_cons.mp hn with hn | hn
                · exact absurd hn (by simp)
                · exact List.mem_cons_of_mem _
                    (ih (pos + sz) pr'.1 pr'.2 (by rw [hpr']) n hn)
              · rw [if_neg hsz] at h
                rcases Option.map_eq_some'.mp h with ⟨pr', hpr', heq⟩
                cases heq
                rcases List.mem_cons.mp hn with hn | hn
                · exact absurd hn (by simp)
                · exact List.mem_cons_of_mem _
                    (ih (pos + sz + sz) pr'.1 pr'.2 (by rw [hpr']) n hn)

/-- The label pass adds no byte items. -/
theorem labelPass_byte_mem :
    ∀ (l : List Item) (pos n : Nat),
      Item.byte n ∈ (labelPass pos l).1 → Item.byte n ∈ l := by
  intro l
  induction l with
  | nil => intro pos n h; simpa [labelPass] using h
  | cons head rest ih =>
      intro pos n h
      cases head with
      | byte m =>
          simp only [labelPass] at h
          rcases List.mem_cons.mp h with h | h
          · rw [h]; exact List.mem_cons_self _ _
          · exact List.mem_cons_of_mem _ (ih (pos + 1) n h)
      | lbl i q =>
          simp only [labelPass] at h
          rcases List.mem_cons.mp h with h | h
          · exact absurd h (by simp)
          · exact List.mem_cons_of_mem _ (ih pos n h)
      | deferred c pr cur sz =>
          simp only [labelPass] at h
          rcases List.mem_cons.mp h with h | h
          · exact absurd h (by simp)
          · exact List.mem_cons_of_mem _ (ih (pos + sz) n h)
      | lst t =>
          simp only [labelPass] at h
          rcases List.mem_cons.mp h with h | h
          · exact absurd h (by simp)
          · exact List.mem_cons_of_mem _ (ih pos n h)

/-- The fix-point loop adds no byte items. -/
theorem fixLoop_byte_mem (sp : Nat) :
    ∀ (fuel : Nat) (code out : List Item) (n : Nat),
      fixLoop sp fuel code = some (out, n) →
      ∀ m, Item.byte m ∈ out → Item.byte m ∈ code := by
  intro fuel
  induction fuel with
  | zero => intro code out n h; simp [fixLoop] at h
  | succ fuel ih =>
      intro code out n h m hm
      simp only [fixLoop] at h
      cases hsp : sizePass (envOf code) sp code with
      | none => rw [hsp] at h; exact absurd h (by simp)
      | some pr1 =>
          obtain ⟨code1, ch1⟩ := pr1
          rw [hsp] at h
          simp only at h
          by_cases hb : (ch1 || (labelPass sp code1).2) = true
          · rw [if_pos hb] at h
            rcases Option.map_eq_some'.mp h with ⟨q, hq, heq⟩
            have hout : q.1 = out := congrArg Prod.fst heq
            rw [← hout] at hm
            have hm1 := ih (labelPass sp code1).1 q.1 q.2 (by rw [hq]) m hm
            exact sizePass_byte_mem (envOf code) code sp code1 ch1 hsp m
              (labelPass_byte_mem code1 sp m hm1)
          · rw [if_neg hb] at h
            have hout : (labelPass sp code1).1 = out :=
              congrArg Prod.fst (Option.some.inj h)
            rw [← hout] at hm
            exact sizePass_byte_mem (envOf code) code sp code1 ch1 hsp m
              (labelPass_byte_mem code1 sp m hm)

/-- A successful emission walk over a stream whose byte items are masked
produces only byte values below 256 and listings. -/
theorem emitPass_flat (env : Env) :
    ∀ (l : List Item) (pos : Nat) (pr : List Item × Nat),
      emitPass env pos l = some pr → (∀ n, Item.byte n ∈ l → n < 256) →
      ∀ it ∈ pr.1, flatItem it := by
  intro l
  induction l with
  | nil =>
      intro pos pr h _ it hit
      rw [show emitPass env pos ([] : List Item) = some ([], pos) from rfl] at h
      cases h
      simp at hit
  | cons head rest ih =>
      intro pos pr h hb it hit
      cases head with
      | byte n =>
          rw [show emitPass env pos (Item.byte n :: rest) =
              (emitPass env (pos + 1) rest).map
                (fun pr => (Item.byte n :: pr.1, pr.2)) from rfl] at h
          rcases Option.map_eq_some'.mp h with ⟨pr', hpr', heq⟩
          rw [← heq] at hit
          rcases List.mem_cons.mp hit with hit | hit
          · rw [hit]
            exact hb n (List.mem_cons_self _ _)
          · exact ih (pos + 1) pr' hpr'
              (fun m hm => hb m (List.mem_cons_of_mem _ hm)) it hit
      | lbl id0 p0 =>
          rw [show emitPass env pos (Item.lbl id0 p0 :: rest) =
              (if p0 = some pos then emitPass env pos rest else none) from rfl] at h
          by_cases hp : p0 = some pos
          · rw [if_pos hp] at h
            exact ih pos pr h (fun m hm => hb m (List.mem_cons_of_mem _ hm)) it hit
          · rw [if_neg hp] at h; exact absurd h (by simp)
      | deferred checks prods cur sz =>
          rw [show emitPass env pos (Item.deferred checks prods cur sz :: rest) =
              (match prods.get? cur with
               | none => none
               | some prod =>
                   (emitPass env (pos + sz) rest).map fun pr =>
                     (((prod env pos).map fun b => Item.byte (b % 256)) ++ pr.1, pr.2))
              from rfl] at h
          cases hprod : prods.get? cur with
          | none => rw [hprod] at h; exact absurd h (by simp)
          | some prod =>
              rw [hprod] at h
              rcases Option.map_eq_some'.mp h with ⟨pr', hpr', heq⟩
              rw [← heq] at hit
              rcases List.mem_append.mp hit with hit | hit
              · rcases List.mem_map.mp hit with ⟨b, _, rfl⟩
                simp only [flatItem]
                exact Nat.mod_lt b (by norm_num)
              · exact ih (pos + sz) pr' hpr'
                  (fun m hm => hb m (List.mem_cons_of_mem _ hm)) it hit
      | lst t =>
          rw [show emitPass env pos (Item.lst t :: rest) =
              (emitPass env pos rest).map
                (fun pr => (Item.lst t :: pr.1, pr.2)) from rfl] at h
          rcases Option.map_eq_some'.mp h with ⟨pr', hpr', heq⟩
          rw [← heq] at hit
          rcases List.mem_cons.mp hit with hit | hit
          · rw [hit]; simp [flatItem]
          · exact ih pos pr' hpr'
              (fun m hm => hb m (List.mem_cons_of_mem _ hm)) it hit

/-- The initial walk is the identity on a flat stream. -/
theorem flat_initWalk :
    ∀ (l : List Item) (p : Nat), (∀ it ∈ l, flatItem it) → initWalk p l = l := by
  intro l
  induction l with
  | nil => intro p _; rfl
  | cons head rest ih =>
      intro p hf
      have hrest := fun it hit => hf it (List.mem_cons_of_mem head hit)
      cases head with
      | byte n => simp [initWalk, ih (p + 1) hrest]
      | lbl i q => exact absurd (hf _ (List.mem_cons_self _ _)) (by simp [flatItem])
      | deferred c pr cur sz =>
          exact absurd (hf _ (List.mem_cons_self _ _)) (by simp [flatItem])
      | lst t => simp [initWalk, ih p hrest]

/-- The sizing pass is the no-change identity on a flat stream. -/
theorem flat_sizePass (env : Env) :
    ∀ (l : List Item) (pos : Nat), (∀ it ∈ l, flatItem it) →
      sizePass env pos l = some (l, false) := by
  intro l
  induction l with
  | nil => intro pos _; rfl
  | cons head rest ih =>
      intro pos hf
      have hrest := fun it hit => hf it (List.mem_cons_of_mem head hit)
      cases head with
      | byte n => simp [sizePass, ih (pos + 1) hrest]
      | lbl i q => exact absurd (hf _ (List.mem_cons_self _ _)) (by simp [flatItem])
      | deferred c pr cur sz =>
          exact absurd (hf _ (List.mem_cons_self _ _)) (by simp [flatItem])
      | lst t => simp [sizePass, ih pos hrest]

/-- The label pass is the no-change identity on a flat stream. -/
theorem flat_labelPass :
    ∀ (l : List Item) (pos : Nat), (∀ it ∈ l, flatItem it) →
      labelPass pos l = (l, false) := by
  intro l
  induction l with
  | nil => intro pos _; rfl
  | cons head rest ih =>
      intro pos hf
      have hrest := fun it hit => hf it (List.mem_cons_of_mem head hit)
      cases head with
      | byte n => simp [labelPass, ih (pos + 1) hrest]
      | lbl i q => exact absurd (hf _ (List.mem_cons_self _ _)) (by simp [flatItem])
      | deferred c pr cur sz =>
          exact absurd (hf _ (List.mem_cons_self _ _)) (by simp [flatItem])
      | lst t => simp [labelPass, ih pos hrest]

/-- The emission walk is the identity on a flat stream and returns the
walk start plus its byte count. -/
theorem flat_emitPass (env : Env) :
    ∀ (l : List Item) (pos : Nat), (∀ it ∈ l, flatItem it) →
      emitPass env pos l = some (l, pos + countBytes l) := by
  intro l
  induction l with
  | nil => intro pos _; simp [emitPass, countBytes]
  | cons head rest ih =>
      intro pos hf
      have hrest := fun it hit => hf it (List.mem_cons_of_mem head hit)
      cases head with
      | byte n =>
          rw [show emitPass env pos (Item.byte n :: rest) =
              (emitPass env (pos + 1) rest).map
                (fun pr => (Item.byte n :: pr.1, pr.2)) from rfl]
          rw [ih (pos + 1) hrest]
          simp [countBytes, List.countP_cons]
          omega
      | lbl i q => exact absurd (hf _ (List.mem_cons_self _ _)) (by simp [flatItem])
      | deferred c pr cur sz =>
          exact absurd (hf _ (List.mem_cons_self _ _)) (by simp [flatItem])
      | lst t =>
          rw [show emitPass env pos (Item.lst t :: rest) =
              (emitPass env pos rest).map
                (fun pr => (Item.lst t :: pr.1, pr.2)) from rfl]
          rw [ih pos hrest]
          simp [countBytes, List.countP_cons]

/-- Claim C10 (confirmed): after a successful `assemble()` on a block
whose byte items are in range (as every block built through the `gen`
API is — `gen8` masks with 0xff), the item stream holds only byte values
in 0..=255 and listings: labels are gone and each deferred item has been
replaced by its production's bytes.  A second `assemble()` on the
unmodified result block succeeds and returns the very same stream (and
in particular the same byte sequence). -/
theorem c10_flat_and_idempotent (cb : CodeBlock) (fuel : Nat)
    (cb' : CodeBlock) (r : Nat)
    (h : assemble cb fuel = some (cb', r))
    (hb : ∀ n, Item.byte n ∈ cb.code → n < 256) :
    (∀ it ∈ cb'.code, flatItem it) ∧
    assemble cb' 1 = some (cb', cb'.startPos + byteNb cb') := by
  rcases hfix : fixLoop cb.startPos fuel (initWalk cb.startPos cb.code)
    with _ | ⟨code1, n⟩
  · simp [assemble, hfix] at h
  · rcases hemit : emitPass (envOf code1) cb.startPos code1 with _ | ⟨code2, pos⟩
    · simp [assemble, hfix, hemit] at h
    · have hcb' : cb' = ⟨cb.startPos, cb.bigEndian, cb.useListing, code2⟩ ∧
          r = pos := by
        simp [assemble, hfix, hemit] at h
        exact ⟨h.1.symm, h.2.symm⟩
      have hb1 : ∀ n, Item.byte n ∈ code1 → n < 256 := fun m hm =>
        hb m (initWalk_byte_mem cb.code cb.startPos m
          (fixLoop_byte_mem cb.startPos fuel _ code1 _ hfix m hm))
      have hflat : ∀ it ∈ code2, flatItem it :=
        emitPass_flat (envOf code1) code1 cb.startPos (code2, pos) hemit hb1
      constructor
      · rw [hcb'.1]; exact hflat
      · rw [hcb'.1]
        have h1 : initWalk cb.startPos code2 = code2 :=
          flat_initWalk code2 cb.startPos hflat
        have h2 : sizePass (envOf code2) cb.startPos code2 = some (code2, false) :=
          flat_sizePass (envOf code2) code2 cb.startPos hflat
        have h3 : labelPass cb.startPos code2 = (code2, false) :=
          flat_labelPass code2 cb.startPos hflat
        have h4 : emitPass (envOf code2) cb.startPos code2 =
            some (code2, cb.startPos + countBytes code2) :=
          flat_emitPass (envOf code2) code2 cb.startPos hflat
        simp [assemble, fixLoop, h1, h2, h3, h4, byteNb, countBytes]

/-- Witness for C10 at the concrete block `cbW`: the assembled stream is
flat and a second `assemble` reproduces it. -/
theorem c10_flat_and_idempotent_witness :
    (∀ it ∈ cbWout.code, flatItem it) ∧
    assemble cbWout 1 = some (cbWout, cbWout.startPos + byteNb cbWout) :=
  c10_flat_and_idempotent cbW 2 cbWout 3 rfl (by
    intro n hn
    simp [cbW, genListing, genDeferred, genLabel, gen8, CodeBlock.init] at hn
    omega)

/-- The initial walk leaves the deferred objects untouched. -/
theorem initWalk_defs :
    ∀ (l : List Item) (p : Nat), defsOf (initWalk p l) = defsOf l := by
  intro l
  induction l with
  | nil => intro p; rfl
  | cons head rest ih =>
      intro p
      cases head with
      | byte n => simp [initWalk, defsOf, ih]
      | lbl i q => simp [initWalk, defsOf, ih]
      | deferred c pr cur sz => simp [initWalk, defsOf, ih]
      | lst t => simp [initWalk, defsOf, ih]

/-- Splitting well-formedness over a leading deferred item. -/
theorem wfcode_cons_def {checks : List CheckFn} {prods : List ProdFn}
    {cur sz : Nat} {rest : List Item} :
    WFcode (Item.deferred checks prods cur sz :: rest) ↔
      DefWF ⟨checks, prods, cur, sz⟩ ∧ WFcode rest := by
  simp [WFcode, defsOf]

/-- Splitting sizedness over a leading deferred item. -/
theorem sizedcode_cons_def {checks : List CheckFn} {prods : List ProdFn}
    {cur sz : Nat} {rest : List Item} :
    SizedCode (Item.deferred checks prods cur sz :: rest) ↔
      DefSized ⟨checks, prods, cur, sz⟩ ∧ SizedCode rest := by
  simp [SizedCode, defsOf]

/-- When the last check of a nonempty scan list always accepts, the scan
succeeds. -/
theorem findCheckAux_some (env : Env) (pos : Nat) :
    ∀ (l : List CheckFn) (start : Nat), l ≠ [] →
      (∀ c, l.get? (l.length - 1) = some c → (c env pos).isSome) →
      (findCheckAux env pos l start).isSome := by
  intro l
  induction l with
  | nil => intro start h _; exact absurd rfl h
  | cons c rest ih =>
      intro start _ hlast
      rw [show findCheckAux env pos (c :: rest) start =
          (match c env pos with
           | some sz => some (start, sz)
           | none => findCheckAux env pos rest (start + 1)) from rfl]
      cases hc : c env pos with
      | some s => simp
      | none =>
          cases rest with
          | nil =>
              have := hlast c (by simp)
              rw [hc] at this
              simp at this
          | cons c2 rest2 =>
              simp only
              refine ih (start + 1) (by simp) ?_
              intro c' hc'
              refine hlast c' ?_
              have hidx : (c :: c2 :: rest2).length - 1 =
                  ((c2 :: rest2).length - 1) + 1 := by
                simp
              rw [hidx]
              simpa using hc'

/-- Under fixed per-alternative sizes with an always-accepting last
alternative, the check scan from any in-range `current` succeeds, lands
in range, and returns that alternative's fixed size. -/
theorem findCheck_wf (env : Env) (pos : Nat) (checks : List CheckFn)
    (cur : Nat) (σ : Nat → Nat)
    (hfix : ChecksFixed σ checks) (hcur : cur < checks.length) :
    ∃ k s c, findCheck checks env pos cur = some (k, s) ∧ cur ≤ k ∧
      k < checks.length ∧ checks.get? k = some c ∧ c env pos = some s ∧
      s = σ k := by
  have hdlen : (checks.drop cur).length = checks.length - cur :=
    List.length_drop cur checks
  have hd : checks.drop cur ≠ [] := by
    intro hnil
    have := congrArg List.length hnil
    rw [hdlen] at this
    simp at this
    omega
  have hlast : ∀ c, (checks.drop cur).get? ((checks.drop cur).length - 1) =
      some c → (c env pos).isSome := by
    intro c hc
    rw [List.get?_drop] at hc
    rw [show cur + ((checks.drop cur).length - 1) = checks.length - 1 by
      rw [hdlen]; omega] at hc
    have := hfix.2 c hc env pos
    simp [this]
  have hsome := findCheckAux_some env pos (checks.drop cur) cur hd hlast
  rcases hres : findCheckAux env pos (checks.drop cur) cur with _ | ⟨k, s⟩
  · rw [hres] at hsome; simp at hsome
  · obtain ⟨h1, h2, ⟨c, hgc, hacc⟩, _⟩ :=
      findCheckAux_spec env pos (checks.drop cur) cur k s hres
    rw [List.get?_drop] at hgc
    rw [show cur + (k - cur) = k by omega] at hgc
    have hklen : k < checks.length := by
      rw [hdlen] at h2
      omega
    refine ⟨k, s, c, hres, h1, hklen, hgc, hacc, ?_⟩
    rcases hfix.1 k c hgc env pos with h | h
    · rw [h] at hacc; exact absurd hacc (by simp)
    · rw [h] at hacc; exact (Option.some.inj hacc).symm

/-- Under well-formed deferred items the sizing pass never fails. -/
theorem sizePass_some (env : Env) :
    ∀ (l : List Item) (pos : Nat), WFcode l →
      ∃ out ch, sizePass env pos l = some (out, ch) := by
  intro l
  induction l with
  | nil => intro pos _; exact ⟨[], false, rfl⟩
  | cons head rest ih =>
      intro pos hwf
      cases head with
      | byte n =>
          obtain ⟨out, ch, hrec⟩ := ih (pos + 1) hwf
          exact ⟨Item.byte n :: out, ch, by simp [sizePass, hrec]⟩
      | lbl i p =>
          obtain ⟨out, ch, hrec⟩ := ih pos hwf
          exact ⟨Item.lbl i p :: out, ch, by simp [sizePass, hrec]⟩
      | lst t =>
          obtain ⟨out, ch, hrec⟩ := ih pos hwf
          exact ⟨Item.lst t :: out, ch, by simp [sizePass, hrec]⟩
      | deferred checks prods cur sz =>
          rw [wfcode_cons_def] at hwf
          obtain ⟨⟨hpl, hcl, σ, hfix⟩, hwfr⟩ := hwf
          obtain ⟨k, s, c, hfc, -, -, -, -, -⟩ :=
            findCheck_wf env pos checks cur σ hfix hcl
          by_cases hsz : sz = s
          · subst hsz
            obtain ⟨out, ch, hrec⟩ := ih (pos + sz) hwfr
            exact ⟨Item.deferred checks prods k sz :: out, ch, by
              simp [sizePass, hfc, hrec]⟩
          · obtain ⟨out, ch, hrec⟩ := ih (pos + sz + sz) hwfr
            exact ⟨Item.deferred checks prods k s :: out, true, by
              simp [sizePass, hfc, hrec, hsz]⟩

/-- The sizing pass preserves well-formedness (the accepted index stays
in range, the arrays are untouched). -/
theorem sizePass_wf (env : Env) :
    ∀ (l : List Item) (pos : Nat) (out : List Item) (ch : Bool),
      WFcode l → sizePass env pos l = some (out, ch) → WFcode out := by
  intro l
  induction l with
  | nil =>
      intro pos out ch _ h
      simp only [sizePass, Option.some.injEq, Prod.mk.injEq] at h
      obtain ⟨rfl, rfl⟩ := h
      intro q hq
      simp [defsOf] at hq
  | cons head rest ih =>
      intro pos out ch hwf h
      cases head with
      | byte n =>
          simp only [sizePass] at h
          rcases Option.map_eq_some'.mp h with ⟨pr', hpr', heq⟩
          cases heq
          intro q hq
          exact ih (pos + 1) pr'.1 pr'.2 hwf (by rw [hpr']) q hq
      | lbl i p =>
          simp only [sizePass] at h
          rcases Option.map_eq_some'.mp h with ⟨pr', hpr', heq⟩
          cases heq
          intro q hq
          exact ih pos pr'.1 pr'.2 hwf (by rw [hpr']) q hq
      | lst t =>
          simp only [sizePass] at h
          rcases Option.map_eq_some'.mp h with ⟨pr', hpr', heq⟩
          cases heq
          intro q hq
          exact ih pos pr'.1 pr'.2 hwf (by rw [hpr']) q hq
      | deferred checks prods cur sz =>
          rw [wfcode_cons_def] at hwf
          obtain ⟨⟨hpl, hcl, σ, hfix⟩, hwfr⟩ := hwf
          simp only [sizePass] at h
          cases hfc : findCheck checks env pos cur with
          | none => rw [hfc] at h; exact absurd h (by simp)
          | some pr0 =>
              obtain ⟨cur', newSize⟩ := pr0
              rw [hfc] at h
              simp only at h
              have hk : cur' < checks.length := by
                obtain ⟨-, h2, -, -⟩ :=
                  findCheckAux_spec env pos (checks.drop cur) cur cur' newSize hfc
                rw [List.length_drop] at h2
                omega
              by_cases hsz : sz = newSize
              · rw [if_pos hsz] at h
                rcases Option.map_eq_some'.mp h with ⟨pr', hpr', heq⟩
                cases heq
                rw [wfcode_cons_def]
                exact ⟨⟨hpl, hk, σ, hfix⟩,
                  ih (pos + sz) pr'.1 pr'.2 hwfr (by rw [hpr'])⟩
              · rw [if_neg hsz] at h
                rcases Option.map_eq_some'.mp h with ⟨pr', hpr', heq⟩
                cases heq
                rw [wfcode_cons_def]
                exact ⟨⟨hpl, hk, σ, hfix⟩,
                  ih (pos + sz + sz) pr'.1 pr'.2 hwfr (by rw [hpr'])⟩

/-- After one sizing pass over well-formed items, every deferred item is
sized: its stored size is the (fixed) value its current check accepts. -/
theorem sizePass_sized (env : Env) :
    ∀ (l : List Item) (pos : Nat) (out : List Item) (ch : Bool),
      WFcode l → sizePass env pos l = some (out, ch) → SizedCode out := by
  intro l
  induction l with
  | nil =>
      intro pos out ch _ h
      simp only [sizePass, Option.some.injEq, Prod.mk.injEq] at h
      obtain ⟨rfl, rfl⟩ := h
      intro q hq
      simp [defsOf] at hq
  | cons head rest ih =>
      intro pos out ch hwf h
      cases head with
      | byte n =>
          simp only [sizePass] at h
          rcases Option.map_eq_some'.mp h with ⟨pr', hpr', heq⟩
          cases heq
          intro q hq
          exact ih (pos + 1) pr'.1 pr'.2 hwf (by rw [hpr']) q hq
      | lbl i p =>
          simp only [sizePass] at h
          rcases Option.map_eq_some'.mp h with ⟨pr', hpr', heq⟩
          cases heq
          intro q hq
          exact ih pos pr'.1 pr'.2 hwf (by rw [hpr']) q hq
      | lst t =>
          simp only [sizePass] at h
          rcases Option.map_eq_some'.mp h with ⟨pr', hpr', heq⟩
          cases heq
          intro q hq
          exact ih pos pr'.1 pr'.2 hwf (by rw [hpr']) q hq
      | deferred checks prods cur sz =>
          rw [wfcode_cons_def] at hwf
          obtain ⟨⟨hpl, hcl, σ, hfix⟩, hwfr⟩ := hwf
          simp only [sizePass] at h
          cases hfc : findCheck checks env pos cur with
          | none => rw [hfc] at h; exact absurd h (by simp)
          | some pr0 =>
              obtain ⟨cur', newSize⟩ := pr0
              rw [hfc] at h
              simp only at h
              have hsig : newSize = σ cur' ∧
                  ∃ c, checks.get? cur' = some c := by
                obtain ⟨k, s, c, hfc2, -, -, hgc, hacc, hs⟩ :=
                  findCheck_wf env pos checks cur σ hfix hcl
                rw [hfc] at hfc2
                have hks : k = cur' ∧ s = newSize := by
                  have := Option.some.inj hfc2
                  exact ⟨(congrArg Prod.fst this).symm, (congrArg Prod.snd this).symm⟩
                obtain ⟨rfl, rfl⟩ := hks
                exact ⟨hs, c, hgc⟩
              have hdsized : DefSized ⟨checks, prods, cur', newSize⟩ := by
                intro c' hgc' env' pos' v hv
                show v = newSize
                rcases hfix.1 cur' c' hgc' env' pos' with hr | hr
                · rw [hr] at hv; exact absurd hv (by simp)
                · rw [hr] at hv
                  rw [hsig.1]
                  exact (Option.some.inj hv).symm
              by_cases hsz : sz = newSize
              · rw [if_pos hsz] at h
                rcases Option.map_eq_some'.mp h with ⟨pr', hpr', heq⟩
                cases heq
                rw [sizedcode_cons_def]
                exact ⟨hdsized, ih (pos + sz) pr'.1 pr'.2 hwfr (by rw [hpr'])⟩
              · rw [if_neg hsz] at h
                rcases Option.map_eq_some'.mp h with ⟨pr', hpr', heq⟩
                cases heq
                rw [sizedcode_cons_def]
                exact ⟨hdsized, ih (pos + sz + sz) pr'.1 pr'.2 hwfr (by rw [hpr'])⟩

/-- A no-change sizing pass neither moves labels nor alters any width, so
label placement is preserved. -/
theorem sizePass_false_placed (env : Env) :
    ∀ (l : List Item) (pos : Nat) (out : List Item),
      sizePass env pos l = some (out, false) →
      ∀ p, Placed p l → Placed p out := by
  intro l
  induction l with
  | nil =>
      intro pos out h p hp
      injection h with h'
      injection h' with h1 h2
      rw [← h1]
      exact hp
  | cons head rest ih =>
      intro pos out h p hp
      cases head with
      | byte n =>
          simp only [sizePass] at h
          rcases Option.map_eq_some'.mp h with ⟨pr', hpr', heq⟩
          have h1 : Item.byte n :: pr'.1 = out := congrArg Prod.fst heq
          have h2 : pr'.2 = false := congrArg Prod.snd heq
          rw [← h1]
          exact ih (pos + 1) pr'.1 (by rw [hpr', ← h2]) (p + 1) hp
      | lbl i q =>
          simp only [sizePass] at h
          rcases Option.map_eq_some'.mp h with ⟨pr', hpr', heq⟩
          have h1 : Item.lbl i q :: pr'.1 = out := congrArg Prod.fst heq
          have h2 : pr'.2 = false := congrArg Prod.snd heq
          rw [← h1]
          exact ⟨hp.1, ih pos pr'.1 (by rw [hpr', ← h2]) p hp.2⟩
      | lst t =>
          simp only [sizePass] at h
          rcases Option.map_eq_some'.mp h with ⟨pr', hpr', heq⟩
          have h1 : Item.lst t :: pr'.1 = out := congrArg Prod.fst heq
          have h2 : pr'.2 = false := congrArg Prod.snd heq
          rw [← h1]
          exact ih pos pr'.1 (by rw [hpr', ← h2]) p hp
      | deferred checks prods cur sz =>
          simp only [sizePass] at h
          cases hfc : findCheck checks env pos cur with
          | none => rw [hfc] at h; exact absurd h (by simp)
          | some pr0 =>
              obtain ⟨cur', newSize⟩ := pr0
              rw [hfc] at h
              simp only at h
              by_cases hsz : sz = newSize
              · rw [if_pos hsz] at h
                rcases Option.map_eq_some'.mp h with ⟨pr', hpr', heq⟩
                have h1 : Item.deferred checks prods cur' newSize :: pr'.1 = out :=
                  congrArg Prod.fst heq
                have h2 : pr'.2 = false := congrArg Prod.snd heq
                rw [← h1]
                show Placed (p + newSize) pr'.1
                rw [← hsz]
                exact ih (pos + sz) pr'.1 (by rw [hpr', ← h2]) (p + sz) hp
              · rw [if_neg hsz] at h
                rcases Option.map_eq_some'.mp h with ⟨pr', hpr', heq⟩
                have h2 : true = false := congrArg Prod.snd heq
                exact absurd h2 (by simp)

/-- The label pass places every label at its walk position. -/
theorem labelPass_placed :
    ∀ (l : List Item) (pos : Nat), Placed pos (labelPass pos l).1 := by
  intro l
  induction l with
  | nil => intro pos; exact trivial
  | cons head rest ih =>
      intro pos
      cases head with
      | byte n => exact ih (pos + 1)
      | lbl i p => exact ⟨rfl, ih pos⟩
      | deferred c pr cur sz => exact ih (pos + sz)
      | lst t => exact ih pos

/-- On an already-placed stream the label pass is the no-change
identity. -/
theorem labelPass_of_placed :
    ∀ (l : List Item) (pos : Nat), Placed pos l → labelPass pos l = (l, false) := by
  intro l
  induction l with
  | nil => intro pos _; rfl
  | cons head rest ih =>
      intro pos hp
      cases head with
      | byte n => simp [labelPass, ih (pos + 1) hp]
      | lbl i p => simp [labelPass, ih pos hp.2, hp.1]
      | deferred c pr cur sz => simp [labelPass, ih (pos + sz) hp]
      | lst t => simp [labelPass, ih pos hp]

/-- Forward steps on deferred data can only shrink the total slack. -/
theorem forall2_defstep_slack {ds ds' : List DefData}
    (h : List.Forall₂ DefStep ds ds') :
    (ds'.map defSlack).sum ≤ (ds.map defSlack).sum := by
  induction h with
  | nil => exact le_refl _
  | @cons q q' tl tl' hq htl ih =>
      simp only [List.map_cons, List.sum_cons]
      have e : defSlack q' = q.checks.length - 1 - q'.current := by
        simp only [defSlack, hq.1]
      have e2 : defSlack q = q.checks.length - 1 - q.current := rfl
      have := hq.2.2
      omega

/-- The sizing pass never grows the slack. -/
theorem sizePass_slack_le (env : Env) (l : List Item) (pos : Nat)
    (out : List Item) (ch : Bool) (h : sizePass env pos l = some (out, ch)) :
    slack out ≤ slack l :=
  forall2_defstep_slack (sizePass_defs env l pos out ch h)

/-- A sizing pass that reports change over well-formed, sized items
strictly shrinks the slack: some `current` index advanced. -/
theorem sizePass_true_slack (env : Env) :
    ∀ (l : List Item) (pos : Nat) (out : List Item),
      WFcode l → SizedCode l → sizePass env pos l = some (out, true) →
      slack out < slack l := by
  intro l
  induction l with
  | nil =>
      intro pos out _ _ h
      injection h with h'
      injection h' with h1 h2
      exact absurd h2.symm (by simp)
  | cons head rest ih =>
      intro pos out hwf hsd h
      cases head with
      | byte n =>
          simp only [sizePass] at h
          rcases Option.map_eq_some'.mp h with ⟨pr', hpr', heq⟩
          have h1 : Item.byte n :: pr'.1 = out := congrArg Prod.fst heq
          have h2 : pr'.2 = true := congrArg Prod.snd heq
          have := ih (pos + 1) pr'.1 hwf hsd (by rw [hpr', ← h2])
          rw [← h1]
          simpa [slack, defsOf] using this
      | lbl i q =>
          simp only [sizePass] at h
          rcases Option.map_eq_some'.mp h with ⟨pr', hpr', heq⟩
          have h1 : Item.lbl i q :: pr'.1 = out := congrArg Prod.fst heq
          have h2 : pr'.2 = true := congrArg Prod.snd heq
          have := ih pos pr'.1 hwf hsd (by rw [hpr', ← h2])
          rw [← h1]
          simpa [slack, defsOf] using this
      | lst t =>
          simp only [sizePass] at h
          rcases Option.map_eq_some'.mp h with ⟨pr', hpr', heq⟩
          have h1 : Item.lst t :: pr'.1 = out := congrArg Prod.fst heq
          have h2 : pr'.2 = true := congrArg Prod.snd heq
          have := ih pos pr'.1 hwf hsd (by rw [hpr', ← h2])
          rw [← h1]
          simpa [slack, defsOf] using this
      | deferred checks prods cur sz =>
          rw [wfcode_cons_def] at hwf
          obtain ⟨⟨hpl, hcl, σ, hfix⟩, hwfr⟩ := hwf
          rw [sizedcode_cons_def] at hsd
          obtain ⟨hds, hsdr⟩ := hsd
          simp only [sizePass] at h
          cases hfc : findCheck checks env pos cur with
          | none => rw [hfc] at h; exact absurd h (by simp)
          | some pr0 =>
              obtain ⟨cur', newSize⟩ := pr0
              rw [hfc] at h
              simp only at h
              obtain ⟨hle, hlen2, ⟨c, hgc, hacc⟩, -⟩ :=
                findCheckAux_spec env pos (checks.drop cur) cur cur' newSize hfc
              rw [List.length_drop] at hlen2
              rw [List.get?_drop] at hgc
              rw [show cur + (cur' - cur) = cur' by omega] at hgc
              by_cases hsz : sz = newSize
              · rw [if_pos hsz] at h
                rcases Option.map_eq_some'.mp h with ⟨pr', hpr', heq⟩
                have h1 : Item.deferred checks prods cur' newSize :: pr'.1 = out :=
                  congrArg Prod.fst heq
                have h2 : pr'.2 = true := congrArg Prod.snd heq
                have hrec := ih (pos + sz) pr'.1 hwfr hsdr (by rw [hpr', ← h2])
                rw [← h1]
                simp only [slack, defsOf, List.map_cons, List.sum_cons] at hrec ⊢
                have e1 : defSlack ⟨checks, prods, cur', newSize⟩ =
                    checks.length - 1 - cur' := rfl
                have e2 : defSlack ⟨checks, prods, cur, sz⟩ =
                    checks.length - 1 - cur := rfl
                omega
              · rw [if_neg hsz] at h
                rcases Option.map_eq_some'.mp h with ⟨pr', hpr', heq⟩
                have h1 : Item.deferred checks prods cur' newSize :: pr'.1 = out :=
                  congrArg Prod.fst heq
                have hcc : cur < cur' := by
                  rcases Nat.lt_or_ge cur cur' with hlt | hge
                  · exact hlt
                  · exfalso
                    have : cur' = cur := by omega
                    subst this
                    exact hsz (hds c hgc env pos newSize hacc).symm
                have hrest : slack pr'.1 ≤ slack rest :=
                  sizePass_slack_le env rest (pos + sz + sz) pr'.1 pr'.2
                    (by rw [hpr'])
                rw [← h1]
                simp only [slack, defsOf, List.map_cons, List.sum_cons] at hrest ⊢
                have e1 : defSlack ⟨checks, prods, cur', newSize⟩ =
                    checks.length - 1 - cur' := rfl
                have e2 : defSlack ⟨checks, prods, cur, sz⟩ =
                    checks.length - 1 - cur := rfl
                omega

/-- The label pass preserves well-formedness. -/
theorem labelPass_wf (l : List Item) (pos : Nat) (h : WFcode l) :
    WFcode (labelPass pos l).1 := by
  intro q hq
  rw [labelPass_defs l pos] at hq
  exact h q hq

/-- The label pass preserves sizedness. -/
theorem labelPass_sized (l : List Item) (pos : Nat) (h : SizedCode l) :
    SizedCode (labelPass pos l).1 := by
  intro q hq
  rw [labelPass_defs l pos] at hq
  exact h q hq

/-- The label pass preserves the slack. -/
theorem labelPass_slack (l : List Item) (pos : Nat) :
    slack (labelPass pos l).1 = slack l := by
  simp only [slack, labelPass_defs]

/-- The emission walk succeeds on a well-formed, correctly placed
stream: every label check passes and every production index is in
range. -/
theorem emitPass_of_placed (env : Env) :
    ∀ (l : List Item) (pos : Nat), WFcode l → Placed pos l →
      ∃ out r, emitPass env pos l = some (out, r) := by
  intro l
  induction l with
  | nil => intro pos _ _; exact ⟨[], pos, rfl⟩
  | cons head rest ih =>
      intro pos hwf hpl
      cases head with
      | byte n =>
          obtain ⟨out, r, hpr⟩ := ih (pos + 1) hwf hpl
          exact ⟨Item.byte n :: out, r, by simp [emitPass, hpr]⟩
      | lbl i p =>
          obtain ⟨out, r, hpr⟩ := ih pos hwf hpl.2
          exact ⟨out, r, by simp [emitPass, hpl.1, hpr]⟩
      | lst t =>
          obtain ⟨out, r, hpr⟩ := ih pos hwf hpl
          exact ⟨Item.lst t :: out, r, by simp [emitPass, hpr]⟩
      | deferred checks prods cur sz =>
          rw [wfcode_cons_def] at hwf
          obtain ⟨⟨hpl2, hcl, -⟩, hwfr⟩ := hwf
          dsimp only at hpl2 hcl
          have hcp : cur < prods.length := by omega
          have hg : prods[cur]? = some (prods.get ⟨cur, hcp⟩) := by
            rw [← List.get?_eq_getElem?]
            exact List.get?_eq_get hcp
          obtain ⟨out, r, hpr⟩ := ih (pos + sz) hwfr hpl
          exact ⟨((prods.get ⟨cur, hcp⟩ env pos).map fun b =>
            Item.byte (b % 256)) ++ out, r, by simp [emitPass, hg, hpr]⟩

/-- Every deferred item has at most `maxAlts` alternatives. -/
theorem checks_le_maxAlts :
    ∀ (l : List Item) (q : DefData), q ∈ defsOf l →
      q.checks.length ≤ maxAlts l := by
  intro l
  have haux : ∀ (ds : List DefData) (q : DefData), q ∈ ds →
      q.checks.length ≤ ds.foldr (fun q acc => max q.checks.length acc) 0 := by
    intro ds
    induction ds with
    | nil => intro q hq; simp at hq
    | cons d tl ih =>
        intro q hq
        rcases List.mem_cons.mp hq with hq | hq
        · subst hq; exact Nat.le_max_left _ _
        · exact Nat.le_trans (ih q hq) (Nat.le_max_right _ _)
  intro q hq
  exact haux (defsOf l) q hq

/-- The slack is at most `D · (A - 1)`. -/
theorem slack_le_bound (l : List Item) :
    slack l ≤ numDefs l * (maxAlts l - 1) := by
  have hb : ∀ x ∈ (defsOf l).map defSlack, x ≤ maxAlts l - 1 := by
    intro x hx
    rcases List.mem_map.mp hx with ⟨q, hq, rfl⟩
    have hle := checks_le_maxAlts l q hq
    have e : defSlack q = q.checks.length - 1 - q.current := rfl
    omega
  have hs := List.sum_le_card_nsmul ((defsOf l).map defSlack) (maxAlts l - 1) hb
  simpa [slack, numDefs, smul_eq_mul] using hs

/-- From a well-formed, sized, placed state the fix-point loop converges
within `slack + 1` further passes. -/
theorem fixLoop_converges (sp : Nat) :
    ∀ (fuel : Nat) (code : List Item),
      WFcode code → SizedCode code → Placed sp code →
      slack code + 1 ≤ fuel →
      ∃ out n, fixLoop sp fuel code = some (out, n) ∧ n ≤ slack code + 1 ∧
        WFcode out ∧ Placed sp out := by
  intro fuel
  induction fuel with
  | zero => intro code _ _ _ hf; omega
  | succ fuel ih =>
      intro code hwf hsd hpl hf
      obtain ⟨code1, ch1, hsp⟩ := sizePass_some (envOf code) code sp hwf
      have hwf1 : WFcode code1 := sizePass_wf (envOf code) code sp code1 ch1 hwf hsp
      have hsd1 : SizedCode code1 :=
        sizePass_sized (envOf code) code sp code1 ch1 hwf hsp
      by_cases hch : ch1 = true
      · subst hch
        have hslt : slack code1 < slack code :=
          sizePass_true_slack (envOf code) code sp code1 hwf hsd hsp
        have hwf2 : WFcode (labelPass sp code1).1 := labelPass_wf code1 sp hwf1
        have hsd2 : SizedCode (labelPass sp code1).1 := labelPass_sized code1 sp hsd1
        have hpl2 : Placed sp (labelPass sp code1).1 := labelPass_placed code1 sp
        have hsl2 : slack (labelPass sp code1).1 = slack code1 :=
          labelPass_slack code1 sp
        obtain ⟨out, n, hrec, hn, hwfo, hplo⟩ :=
          ih (labelPass sp code1).1 hwf2 hsd2 hpl2 (by omega)
        refine ⟨out, n + 1, ?_, by omega, hwfo, hplo⟩
        simp only [fixLoop, hsp]
        rw [if_pos (by simp), hrec]
        rfl
      · have hch' : ch1 = false := by simpa using hch
        subst hch'
        have hpl1 : Placed sp code1 :=
          sizePass_false_placed (envOf code) code sp code1 hsp sp hpl
        have hlp : labelPass sp code1 = (code1, false) :=
          labelPass_of_placed code1 sp hpl1
        refine ⟨code1, 1, ?_, by omega, hwf1, hpl1⟩
        simp [fixLoop, hsp, hlp]

/-- Claim C4, amended (corrected): when the well-formedness of the
Deferred items is strengthened to fixed per-alternative sizes (each check
returns null or the fixed size of its own alternative, the last always
its size), `assemble()` terminates, and the fix-point loop runs at most
`D·(A−1) + 2` passes (not `D·(A−1) + L + 1`): at most one initial sizing
pass, one advancing pass per remaining alternative, and one final
confirming pass; the label count `L` plays no role. -/
theorem c4_fixed_sizes_converge (cb : CodeBlock) (fuel : Nat)
    (hwf : WFcode cb.code)
    (hfuel : numDefs cb.code * (maxAlts cb.code - 1) + 2 ≤ fuel) :
    ∃ out n,
      fixLoop cb.startPos fuel (initWalk cb.startPos cb.code) = some (out, n) ∧
      n ≤ numDefs cb.code * (maxAlts cb.code - 1) + 2 ∧
      ∃ res, assemble cb fuel = some res := by
  have hdefs0 : defsOf (initWalk cb.startPos cb.code) = defsOf cb.code :=
    initWalk_defs cb.code cb.startPos
  have hwf0 : WFcode (initWalk cb.startPos cb.code) := by
    intro q hq; rw [hdefs0] at hq; exact hwf q hq
  have hslack0 : slack (initWalk cb.startPos cb.code) = slack cb.code := by
    simp [slack, hdefs0]
  have hbound : slack cb.code ≤ numDefs cb.code * (maxAlts cb.code - 1) :=
    slack_le_bound cb.code
  cases fuel with
  | zero => omega
  | succ fuel =>
      obtain ⟨code1, ch1, hsp⟩ :=
        sizePass_some (envOf (initWalk cb.startPos cb.code))
          (initWalk cb.startPos cb.code) cb.startPos hwf0
      have hwf1 : WFcode code1 :=
        sizePass_wf _ _ cb.startPos code1 ch1 hwf0 hsp
      have hsd1 : SizedCode code1 :=
        sizePass_sized _ _ cb.startPos code1 ch1 hwf0 hsp
      have hsl1 : slack code1 ≤ slack (initWalk cb.startPos cb.code) :=
        sizePass_slack_le _ _ cb.startPos code1 ch1 hsp
      have hwf2 : WFcode (labelPass cb.startPos code1).1 :=
        labelPass_wf code1 cb.startPos hwf1
      have hsd2 : SizedCode (labelPass cb.startPos code1).1 :=
        labelPass_sized code1 cb.startPos hsd1
      have hpl2 : Placed cb.startPos (labelPass cb.startPos code1).1 :=
        labelPass_placed code1 cb.startPos
      have hsl2 : slack (labelPass cb.startPos code1).1 = slack code1 :=
        labelPass_slack code1 cb.startPos
      by_cases hcond : (ch1 || (labelPass cb.startPos code1).2) = true
      · obtain ⟨out, n, hrec, hn, hwfo, hplo⟩ :=
          fixLoop_converges cb.startPos fuel (labelPass cb.startPos code1).1
            hwf2 hsd2 hpl2 (by omega)
        have hfl : fixLoop cb.startPos (fuel + 1)
            (initWalk cb.startPos cb.code) = some (out, n + 1) := by
          simp only [fixLoop, hsp]
          rw [if_pos hcond, hrec]
          rfl
        refine ⟨out, n + 1, hfl, by omega, ?_⟩
        obtain ⟨outE, rv, hemit⟩ :=
          emitPass_of_placed (envOf out) out cb.startPos hwfo hplo
        exact ⟨(⟨cb.startPos, cb.bigEndian, cb.useListing, outE⟩, rv),
          by simp [assemble, hfl, hemit]⟩
      · have hfl : fixLoop cb.startPos (fuel + 1)
            (initWalk cb.startPos cb.code) =
            some ((labelPass cb.startPos code1).1, 1) := by
          simp only [fixLoop, hsp]
          rw [if_neg (by simpa using hcond)]
        refine ⟨(labelPass cb.startPos code1).1, 1, hfl, by omega, ?_⟩
        obtain ⟨outE, rv, hemit⟩ :=
          emitPass_of_placed (envOf (labelPass cb.startPos code1).1)
            (labelPass cb.startPos code1).1 cb.startPos hwf2 hpl2
        exact ⟨(⟨cb.startPos, cb.bigEndian, cb.useListing, outE⟩, rv),
          by simp [assemble, hfl, hemit]⟩

/-- Witness for C4 at `cbFive` (one deferred item, one alternative of
fixed size 5): the loop converges in 2 ≤ 1·0 + 2 passes and `assemble`
succeeds. -/
theorem c4_fixed_sizes_converge_witness :
    ∃ out n,
      fixLoop 0 2 (initWalk 0 cbFive.code) = some (out, n) ∧
      n ≤ numDefs cbFive.code * (maxAlts cbFive.code - 1) + 2 ∧
      ∃ res, assemble cbFive 2 = some res :=
  c4_fixed_sizes_converge cbFive 2
    (by
      intro q hq
      simp [cbFive, genDeferred, CodeBlock.init, defsOf] at hq
      subst hq
      refine ⟨rfl, by decide, fun _ => 5, ?_, ?_⟩
      · intro j c hc env pos
        cases j with
        | zero =>
            simp at hc
            subst hc
            exact Or.inr rfl
        | succ j' => simp at hc
      · intro c hc env pos
        simp at hc
        subst hc
        rfl)
    (by decide)

end Asm
